import Mathlib

/-!
# Verification of `interval_map<K, V>` (src/interval_map.h)

The container stores a default value `m_valBegin` and a `std::map<K, V>` of
breakpoints.  The `std::map` is embedded as a list of key/value pairs kept in
strictly increasing key order.  A `std::map` iterator is stable under insertion
and identifies one node; since keys are unique it is embedded as `Option K`:
`some k` is the node whose key is `k`, `none` is `end()`.

Fallible code returns `Except Fault`: `Fault.range_error` is the
`std::range_error` thrown by `insert_end_before`, `Fault.undefined` marks an
iterator operation the C++ standard leaves undefined (dereferencing `end()`,
`std::prev(begin())`).
-/

namespace IntervalMap

/-- Abnormal terminations of the embedded code. -/
inductive Fault where
  | range_error
  | undefined
  deriving DecidableEq, Repr

deriving instance DecidableEq for Except

section StdMap

variable {K V : Type} [LinearOrder K]

/-- Embeds `m_map.begin()`: the first node, `end()` when the map is empty. -/
def mapBegin (m : List (K × V)) : Option K :=
  match m with
  | [] => none
  | e :: _ => some e.1

/-- Embeds `m_map.lower_bound(key)`: the first node whose key is not less than `key`. -/
def lower_bound : List (K × V) → K → Option K
  | [], _ => none
  | e :: rest, key => if e.1 < key then lower_bound rest key else some e.1

/-- Embeds `m_map.upper_bound(key)`: the first node whose key is greater than `key`. -/
def upper_bound : List (K × V) → K → Option K
  | [], _ => none
  | e :: rest, key => if key < e.1 then some e.1 else upper_bound rest key

/-- Embeds `std::next(it)` for an iterator `it` on the node with key `k`. -/
def next (m : List (K × V)) (k : K) : Option K :=
  upper_bound m k

/-- Embeds `*std::prev(it)`: the node right before `it`; `none` when `it` is
`begin()` (no such node). -/
def prev : List (K × V) → Option K → Option (K × V)
  | [], _ => none
  | e :: rest, it =>
    match it with
    | some k =>
      if e.1 < k then
        (match prev rest it with
         | some p => some p
         | none => some e)
      else none
    | none =>
      (match prev rest none with
       | some p => some p
       | none => some e)

/-- Embeds `it->second` for the node with key `k`; `none` when no such node exists. -/
def second : List (K × V) → K → Option V
  | [], _ => none
  | e :: rest, k => if e.1 = k then some e.2 else second rest k

/-- Embeds `m_map.insert(hint, {key, val})`: inserts in key order, leaves the map
as it is when the key is already present. -/
def insert : List (K × V) → K → V → List (K × V)
  | [], key, val => [(key, val)]
  | e :: rest, key, val =>
    if key < e.1 then (key, val) :: e :: rest
    else if e.1 < key then e :: insert rest key val
    else e :: rest

/-- Embeds `m_map.insert_or_assign(key, val)`: inserts in key order, overwrites the
value when the key is already present. -/
def insert_or_assign : List (K × V) → K → V → List (K × V)
  | [], key, val => [(key, val)]
  | e :: rest, key, val =>
    if key < e.1 then (key, val) :: e :: rest
    else if e.1 < key then e :: insert_or_assign rest key val
    else (key, val) :: rest

/-- Embeds `m_map.erase(first, last)` for a valid range: removes the nodes from
`first` (key `s`) up to, not including, `last`. -/
def erase (m : List (K × V)) (s : K) (last : Option K) : List (K × V) :=
  m.filter (fun e =>
    decide (e.1 < s) ||
      (match last with
       | none => false
       | some t => !decide (e.1 < t)))

/-- Embeds `m_map.find(key)`: the node with that key, or `end()`. -/
def mapFind (m : List (K × V)) (key : K) : Option K :=
  match lower_bound m key with
  | some k => if key < k then none else some k
  | none => none

/-- The map invariant of `std::map`: keys strictly increasing. -/
abbrev Sorted (m : List (K × V)) : Prop :=
  m.Pairwise (fun a b => a.1 < b.1)

/-- Value of the last node of `l`, `d` when `l` is empty: the value in force
after all breakpoints of `l` when `d` is in force before them. -/
def lastVal (d : V) (l : List (K × V)) : V :=
  match l.getLast? with
  | some p => p.2
  | none => d

end StdMap

end IntervalMap

/-- The class `interval_map<K, V>`: its two data members. -/
structure interval_map (K V : Type) where
  m_valBegin : V
  m_map : List (K × V)
  deriving DecidableEq, Repr

namespace interval_map

open IntervalMap

variable {K V : Type} [LinearOrder K] [DecidableEq V]

/-- Constructor `interval_map(V const& val)`. -/
def new (val : V) : interval_map K V :=
  ⟨val, []⟩

/-- Member `find_insertion_point`: whether the key is present, and its lower bound. -/
def find_insertion_point (self : interval_map K V) (keyToInsert : K) : Bool × Option K :=
  let lowerBound := lower_bound self.m_map keyToInsert
  let upperBound := upper_bound self.m_map keyToInsert
  let keyExists := !(lowerBound == upperBound)
  let shouldReplace := keyExists
  (shouldReplace, lowerBound)

/-- Member `replace_begin`: returns the new state, the new `*valBeforeBegin` and the
iterator where trimming starts. -/
def replace_begin (self : interval_map K V) (key : K) (val : V) (atPoint : Option K)
    (_valBeforeBegin : V) : Except Fault (interval_map K V × V × Option K) := do
  let intervalAlreadyExists ←
    if atPoint = mapBegin self.m_map then pure false
    else
      match prev self.m_map atPoint with
      | some p => pure (decide (p.2 = val))
      | none => throw Fault.undefined
  if intervalAlreadyExists then
    pure (self, val, atPoint)
  else
    match atPoint with
    | none => throw Fault.undefined
    | some a =>
      match second self.m_map a with
      | none => throw Fault.undefined
      | some v =>
        let m := insert_or_assign self.m_map key val
        pure (⟨self.m_valBegin, m⟩, v, next m a)

/-- Member `insert_begin_before`: returns the new state, the new `*valBeforeBegin`
and the iterator where trimming starts. -/
def insert_begin_before (self : interval_map K V) (key : K) (val : V)
    (beforePoint : Option K) (_valBeforeBegin : V) :
    Except Fault (interval_map K V × V × Option K) :=
  if beforePoint = mapBegin self.m_map then
    let m := insert self.m_map key val
    pure (⟨self.m_valBegin, m⟩, self.m_valBegin, next m key)
  else
    match prev self.m_map beforePoint with
    | none => throw Fault.undefined
    | some p =>
      let intervalAlreadyExists := decide (p.2 = val)
      if !intervalAlreadyExists then
        pure (⟨self.m_valBegin, insert_or_assign self.m_map key val⟩, p.2, beforePoint)
      else
        pure (self, val, beforePoint)

/-- Member `insert_begin`. -/
def insert_begin (self : interval_map K V) (key : K) (val : V) (insertionPoint : Option K)
    (shouldReplace : Bool) (valBeforeBegin : V) :
    Except Fault (interval_map K V × V × Option K) :=
  if shouldReplace then replace_begin self key val insertionPoint valBeforeBegin
  else insert_begin_before self key val insertionPoint valBeforeBegin

/-- Member `replace_end`: the map is not touched, only an iterator is returned. -/
def replace_end (self : interval_map K V) (val : V) (endInsertionPoint : Option K) :
    Except Fault (Option K) :=
  match endInsertionPoint with
  | none => pure none
  | some e =>
    match second self.m_map e with
    | none => throw Fault.undefined
    | some v => if v = val then pure (next self.m_map e) else pure (some e)

/-- Member `insert_end_before`: returns the new state and the iterator where trimming
ends. -/
def insert_end_before (self : interval_map K V) (keyEnd : K) (val : V) (valBeforeBegin : V)
    (beforePoint : Option K) : Except Fault (interval_map K V × Option K) :=
  if beforePoint = mapBegin self.m_map then throw Fault.range_error
  else
    match prev self.m_map beforePoint with
    | none => throw Fault.undefined
    | some p =>
      let intervalAlreadyExists := decide (p.2 = val)
      if !intervalAlreadyExists then
        pure (⟨self.m_valBegin, insert self.m_map keyEnd p.2⟩, some keyEnd)
      else if !decide (valBeforeBegin = val) then
        pure (⟨self.m_valBegin, insert self.m_map keyEnd valBeforeBegin⟩,
          some keyEnd)
      else
        pure (self, mapBegin self.m_map)

/-- Member `insert_end`. -/
def insert_end (self : interval_map K V) (key : K) (val : V) (insertionPoint : Option K)
    (shouldReplace : Bool) (valBeforeBegin : V) :
    Except Fault (interval_map K V × Option K) :=
  if shouldReplace then
    (replace_end self val insertionPoint).map (fun it => (self, it))
  else insert_end_before self key val valBeforeBegin insertionPoint

/-- Member `trim`: the four guards of the source, then `m_map.erase(trimStart, trimEnd)`. -/
def trim (self : interval_map K V) (trimStart trimEnd : Option K) :
    Except Fault (interval_map K V) :=
  if trimStart = trimEnd then pure self
  else
    match trimStart with
    | none => pure self
    | some s =>
      if (match trimEnd with
          | none => false
          | some e => decide (e < s)) then pure self
      else
        match mapBegin self.m_map with
        | none => throw Fault.undefined
        | some b =>
          if s < b then pure self
          else pure ⟨self.m_valBegin, erase self.m_map s trimEnd⟩

/-- Member `assign`. -/
def assign (self : interval_map K V) (keyBegin keyEnd : K) (val : V) :
    Except Fault (interval_map K V) :=
  if ¬ (keyBegin < keyEnd) then pure self
  else do
    let (shouldReplaceBegin, beginInsertionPoint) := find_insertion_point self keyBegin
    let (shouldReplaceEnd, endInsertionPoint) := find_insertion_point self keyEnd
    let valBeforeBegin := self.m_valBegin
    let (self1, valBeforeBegin1, trimStart) ←
      insert_begin self keyBegin val beginInsertionPoint shouldReplaceBegin valBeforeBegin
    let (self2, trimEnd) ←
      insert_end self1 keyEnd val endInsertionPoint shouldReplaceEnd valBeforeBegin1
    trim self2 trimStart trimEnd

/-- Member `operator[]`: the `none` branch of the inner match is `std::prev(begin())`,
excluded by the test before it. -/
def get (self : interval_map K V) (key : K) : V :=
  let it := upper_bound self.m_map key
  if it = mapBegin self.m_map then self.m_valBegin
  else
    match prev self.m_map it with
    | some p => p.2
    | none => self.m_valBegin

/-- Member `find`. -/
def find (self : interval_map K V) (key : K) : Option K :=
  mapFind self.m_map key

end interval_map

/-! ## Reference description of `assign` on a map split at the two keys

For keys `kb < ke` a sorted map is `L ++ M ++ R` with the keys of `L` below
`kb`, those of `M` in `[kb, ke)` and those of `R` at or above `ke`.  The two
functions below describe, on such a split, what the begin phase and the end
phase (followed by `trim`) of `assign` produce; the theorems
`insert_begin_split`, `insert_end_trim_split` and `assign_split` prove that the
embedded code computes exactly this. -/

namespace IntervalMap

variable {K V : Type} [LinearOrder K] [DecidableEq V]

/-- Begin phase on `L ++ X` (keys of `L` below `kb`, keys of `X` at or above):
the nodes up to and including `kb`, the nodes after `kb`, and the value left
in `*valBeforeBegin`. -/
def beginPhase (d : V) (L X : List (K × V)) (kb : K) (val : V) :
    List (K × V) × List (K × V) × V :=
  if (match L.getLast? with
      | some p => decide (p.2 = val)
      | none => false) then (L, X, val)
  else
    match X with
    | [] => (L ++ [(kb, val)], [], lastVal d L)
    | e :: X' =>
      if e.1 = kb then (L ++ [(kb, val)], X', e.2)
      else (L ++ [(kb, val)], X, lastVal d L)

/-- End phase and trim on `P ++ Ms ++ R` (the last node of `P` carries `val`,
keys of `Ms` below `ke`, keys of `R` at or above): the nodes that follow `P`
in the final map. -/
def endPhase (Ms R : List (K × V)) (ke : K) (val vbb : V) : List (K × V) :=
  if mapBegin R = some ke then
    (match R with
     | [] => []
     | e :: R' => if e.2 = val then R' else R)
  else if lastVal val Ms ≠ val then (ke, lastVal val Ms) :: R
  else if vbb ≠ val then (ke, vbb) :: R
  else Ms ++ R

/-- The breakpoint list `assign` leaves for the split `L ++ M ++ R`. -/
def assignRef (d : V) (L M R : List (K × V)) (kb ke : K) (val : V) : List (K × V) :=
  let b := beginPhase d L M kb val
  b.1 ++ endPhase b.2.1 R ke val b.2.2

end IntervalMap

namespace interval_map

open IntervalMap

variable {K V : Type} [LinearOrder K] [DecidableEq V]

/-- States reachable from a freshly constructed map by `assign` calls. -/
inductive Reachable : interval_map K V → Prop where
  | fresh (d : V) : Reachable (new d)
  | step {s s1 : interval_map K V} (keyBegin keyEnd : K) (val : V) :
      Reachable s → assign s keyBegin keyEnd val = Except.ok s1 → Reachable s1

/-- Canonical form: the first value differs from `m_valBegin` and consecutive
values differ. -/
abbrev Canonical (self : interval_map K V) : Prop :=
  List.Chain (fun a b => a ≠ b) self.m_valBegin (self.m_map.map Prod.snd)

end interval_map

/-! # Theorems

## The embedded `std::map` operations on split lists -/

set_option linter.unusedSectionVars false

namespace IntervalMap

section ListLemmas

variable {K V : Type}

@[simp] theorem mapBegin_nil : mapBegin ([] : List (K × V)) = none := rfl

@[simp] theorem mapBegin_cons (e : K × V) (X : List (K × V)) :
    mapBegin (e :: X) = some e.1 := rfl

theorem mapBegin_append_left (P X : List (K × V)) (h : P ≠ []) :
    mapBegin (P ++ X) = mapBegin P := by
  cases P with
  | nil => exact absurd rfl h
  | cons e P => rfl

theorem mapBegin_eq_none {m : List (K × V)} : mapBegin m = none ↔ m = [] := by
  cases m <;> simp [mapBegin]

theorem mapBegin_mem {m : List (K × V)} {k : K} (h : mapBegin m = some k) :
    ∃ e ∈ m, e.1 = k := by
  cases m with
  | nil => simp [mapBegin] at h
  | cons e m => exact ⟨e, by simp, by simpa [mapBegin] using h⟩

variable [LinearOrder K]

theorem lower_bound_append_lt (L X : List (K × V)) (k : K) (h : ∀ e ∈ L, e.1 < k) :
    lower_bound (L ++ X) k = lower_bound X k := by
  induction L with
  | nil => rfl
  | cons a L ih =>
    have ha : a.1 < k := h a (by simp)
    simp only [List.cons_append, lower_bound, ha, if_true]
    exact ih (fun e he => h e (by simp [he]))

theorem lower_bound_of_ge (X : List (K × V)) (k : K) (h : ∀ e ∈ X, k ≤ e.1) :
    lower_bound X k = mapBegin X := by
  cases X with
  | nil => rfl
  | cons a X =>
    have ha : ¬ a.1 < k := not_lt.mpr (h a (by simp))
    simp [lower_bound, mapBegin, ha]

theorem upper_bound_append_le (L X : List (K × V)) (k : K) (h : ∀ e ∈ L, e.1 ≤ k) :
    upper_bound (L ++ X) k = upper_bound X k := by
  induction L with
  | nil => rfl
  | cons a L ih =>
    have ha : ¬ k < a.1 := not_lt.mpr (h a (by simp))
    simp only [List.cons_append, upper_bound, ha, if_false]
    exact ih (fun e he => h e (by simp [he]))

theorem upper_bound_of_gt (X : List (K × V)) (k : K) (h : ∀ e ∈ X, k < e.1) :
    upper_bound X k = mapBegin X := by
  cases X with
  | nil => rfl
  | cons a X =>
    have ha : k < a.1 := h a (by simp)
    simp [upper_bound, mapBegin, ha]

theorem prev_none (m : List (K × V)) : prev m none = m.getLast? := by
  induction m with
  | nil => rfl
  | cons a m ih =>
    simp only [prev, ih, List.getLast?_cons]
    cases m.getLast? <;> rfl

theorem prev_some (L X : List (K × V)) (k : K) (hL : ∀ e ∈ L, e.1 < k)
    (hX : ∀ e ∈ X, k ≤ e.1) : prev (L ++ X) (some k) = L.getLast? := by
  induction L with
  | nil =>
    cases X with
    | nil => rfl
    | cons a X =>
      have ha : ¬ a.1 < k := not_lt.mpr (hX a (by simp))
      simp [prev, ha]
  | cons a L ih =>
    have ha : a.1 < k := hL a (by simp)
    have ih2 := ih (fun e he => hL e (by simp [he]))
    simp only [List.cons_append, prev, ha, if_true, List.append_eq, ih2, List.getLast?_cons]
    cases L.getLast? <;> rfl

theorem second_append (L X : List (K × V)) (k : K) (v : V) (hL : ∀ e ∈ L, e.1 < k) :
    second (L ++ (k, v) :: X) k = some v := by
  induction L with
  | nil => simp [second]
  | cons a L ih =>
    have ha : a.1 ≠ k := ne_of_lt (hL a (by simp))
    simp only [List.cons_append, second, ha, if_false]
    exact ih (fun e he => hL e (by simp [he]))

theorem insert_split (L X : List (K × V)) (k : K) (v : V) (hL : ∀ e ∈ L, e.1 < k)
    (hX : ∀ e ∈ X, k < e.1) : insert (L ++ X) k v = L ++ (k, v) :: X := by
  induction L with
  | nil =>
    cases X with
    | nil => rfl
    | cons a X =>
      have ha : k < a.1 := hX a (by simp)
      simp [insert, ha]
  | cons a L ih =>
    have ha : a.1 < k := hL a (by simp)
    simp only [List.cons_append, insert, not_lt_of_lt ha, ha, if_true, if_false,
      List.append_eq, ih (fun e he => hL e (by simp [he]))]

theorem insert_or_assign_split (L X : List (K × V)) (k : K) (v : V) (hL : ∀ e ∈ L, e.1 < k)
    (hX : ∀ e ∈ X, k < e.1) : insert_or_assign (L ++ X) k v = L ++ (k, v) :: X := by
  induction L with
  | nil =>
    cases X with
    | nil => rfl
    | cons a X =>
      have ha : k < a.1 := hX a (by simp)
      simp [insert_or_assign, ha]
  | cons a L ih =>
    have ha : a.1 < k := hL a (by simp)
    simp only [List.cons_append, insert_or_assign, not_lt_of_lt ha, ha, if_true, if_false,
      List.append_eq, ih (fun e he => hL e (by simp [he]))]

theorem insert_or_assign_replace (L X : List (K × V)) (k : K) (v0 v : V)
    (hL : ∀ e ∈ L, e.1 < k) :
    insert_or_assign (L ++ (k, v0) :: X) k v = L ++ (k, v) :: X := by
  induction L with
  | nil => simp [insert_or_assign]
  | cons a L ih =>
    have ha : a.1 < k := hL a (by simp)
    simp only [List.cons_append, insert_or_assign, not_lt_of_lt ha, ha, if_true, if_false,
      List.append_eq, ih (fun e he => hL e (by simp [he]))]

theorem erase_split (L M R : List (K × V)) (s t : K) (hL : ∀ e ∈ L, e.1 < s)
    (hM : ∀ e ∈ M, s ≤ e.1 ∧ e.1 < t) (hR : ∀ e ∈ R, t ≤ e.1) :
    erase (L ++ M ++ R) s (some t) = L ++ R := by
  unfold erase
  rw [List.filter_append, List.filter_append]
  have h1 : L.filter (fun e => decide (e.1 < s) || !decide (e.1 < t)) = L :=
    List.filter_eq_self.mpr (fun e he => by simp [hL e he])
  have h2 : M.filter (fun e => decide (e.1 < s) || !decide (e.1 < t)) = [] :=
    List.filter_eq_nil_iff.mpr (fun e he => by
      have := hM e he
      simp [this.1, this.2])
  have h3 : R.filter (fun e => decide (e.1 < s) || !decide (e.1 < t)) = R :=
    List.filter_eq_self.mpr (fun e he => by simp [hR e he])
  rw [h1, h2, h3]; simp

theorem erase_split_none (L M : List (K × V)) (s : K) (hL : ∀ e ∈ L, e.1 < s)
    (hM : ∀ e ∈ M, s ≤ e.1) : erase (L ++ M) s none = L := by
  unfold erase
  rw [List.filter_append]
  have h1 : L.filter (fun e => decide (e.1 < s) || false) = L :=
    List.filter_eq_self.mpr (fun e he => by simp [hL e he])
  have h2 : M.filter (fun e => decide (e.1 < s) || false) = [] :=
    List.filter_eq_nil_iff.mpr (fun e he => by simp [hM e he])
  rw [h1, h2]; simp

end ListLemmas

end IntervalMap

namespace IntervalMap

section PhaseLemmas

variable {K V : Type} [LinearOrder K]

theorem sorted_cons_lt {a : K × V} {X : List (K × V)} (h : Sorted (a :: X)) :
    ∀ e ∈ X, a.1 < e.1 :=
  (List.pairwise_cons.mp h).1

theorem sorted_tail {a : K × V} {X : List (K × V)} (h : Sorted (a :: X)) : Sorted X :=
  (List.pairwise_cons.mp h).2

theorem sorted_append_lt {A B : List (K × V)} (h : Sorted (A ++ B)) :
    ∀ a ∈ A, ∀ b ∈ B, a.1 < b.1 :=
  (List.pairwise_append.mp h).2.2

theorem sorted_left {A B : List (K × V)} (h : Sorted (A ++ B)) : Sorted A :=
  (List.pairwise_append.mp h).1

theorem sorted_right {A B : List (K × V)} (h : Sorted (A ++ B)) : Sorted B :=
  (List.pairwise_append.mp h).2.1

theorem mapBegin_ne_of_lt {X : List (K × V)} {k : K} (h : ∀ e ∈ X, k < e.1) :
    mapBegin X ≠ some k := by
  intro hk
  obtain ⟨e, he, hek⟩ := mapBegin_mem hk
  exact absurd (h e he) (by simp [hek])

theorem mapBegin_ne_of_gt {X : List (K × V)} {k : K} (h : ∀ e ∈ X, e.1 < k) :
    mapBegin X ≠ some k := by
  intro hk
  obtain ⟨e, he, hek⟩ := mapBegin_mem hk
  exact absurd (h e he) (by simp [hek])

/-- The lower bound of a key that sits between `L` and `X`, and whether the key is stored. -/
theorem find_insertion_point_split (d : V) (L X : List (K × V)) (k : K)
    (hL : ∀ e ∈ L, e.1 < k) (hX : ∀ e ∈ X, k ≤ e.1) (hs : Sorted X) :
    interval_map.find_insertion_point ⟨d, L ++ X⟩ k
      = (decide (mapBegin X = some k), mapBegin X) := by
  unfold interval_map.find_insertion_point
  simp only []
  rw [lower_bound_append_lt L X k hL, lower_bound_of_ge X k hX,
    upper_bound_append_le L X k (fun e he => le_of_lt (hL e he))]
  cases X with
  | nil => simp [upper_bound]
  | cons a X =>
    by_cases hak : a.1 = k
    · have hgt : ∀ e ∈ X, k < e.1 := fun e he => hak ▸ sorted_cons_lt hs e he
      have hne : mapBegin X ≠ some k := mapBegin_ne_of_lt hgt
      have hne2 : ¬ (some k = mapBegin X) := fun h => hne h.symm
      simp [upper_bound, hak, upper_bound_of_gt X k hgt, hne2]
    · have hlt : k < a.1 := lt_of_le_of_ne (hX a (by simp)) (Ne.symm hak)
      simp [upper_bound, hlt, hak]

end PhaseLemmas

end IntervalMap

namespace IntervalMap

section BeginPhase

variable {K V : Type} [LinearOrder K] [DecidableEq V]

open interval_map

theorem beginPhase_merge (d : V) (L X : List (K × V)) (p : K × V) (kb : K) (val : V)
    (hl : L.getLast? = some p) (hp : p.2 = val) :
    beginPhase d L X kb val = (L, X, val) := by
  simp [beginPhase, hl, hp]

theorem beginPhase_nil_left (d : V) (X : List (K × V)) (kb : K) (val : V) :
    beginPhase d [] X kb val =
      (match X with
       | [] => ([(kb, val)], [], d)
       | e :: X' => if e.1 = kb then ([(kb, val)], X', e.2) else ([(kb, val)], X, d)) := by
  cases X <;> simp [beginPhase, lastVal]

theorem beginPhase_no_merge (d : V) (L X : List (K × V)) (p : K × V) (kb : K) (val : V)
    (hl : L.getLast? = some p) (hp : p.2 ≠ val) :
    beginPhase d L X kb val =
      (match X with
       | [] => (L ++ [(kb, val)], [], p.2)
       | e :: X' =>
         if e.1 = kb then (L ++ [(kb, val)], X', e.2)
         else (L ++ [(kb, val)], X, p.2)) := by
  cases X <;> simp [beginPhase, lastVal, hl, hp]

/-- The begin phase of `assign` on a split map. -/
theorem insert_begin_split (d vbb0 : V) (L X : List (K × V)) (kb : K) (val : V)
    (hL : ∀ e ∈ L, e.1 < kb) (hX : ∀ e ∈ X, kb ≤ e.1) (hs : Sorted X) :
    insert_begin ⟨d, L ++ X⟩ kb val (mapBegin X) (decide (mapBegin X = some kb)) vbb0
      = Except.ok (⟨d, (beginPhase d L X kb val).1 ++ (beginPhase d L X kb val).2.1⟩,
          (beginPhase d L X kb val).2.2, mapBegin (beginPhase d L X kb val).2.1) := by
  cases hl : L.getLast? with
  | none =>
    -- nothing below `kb`
    obtain rfl : L = [] := List.getLast?_eq_none_iff.mp hl
    rw [beginPhase_nil_left]
    cases X with
    | nil =>
      simp [insert_begin, insert_begin_before, insert, next, upper_bound, pure, Except.pure]
    | cons a X' =>
      by_cases hak : a.1 = kb
      · have hgt : ∀ e ∈ X', kb < e.1 := fun e he => hak ▸ sorted_cons_lt hs e he
        have hsec : second (a :: X') kb = some a.2 := by simp [second, hak]
        have hia : insert_or_assign (a :: X') kb val = (kb, val) :: X' := by
          simp [insert_or_assign, hak]
        simp [insert_begin, replace_begin, hak, hsec, hia, next, upper_bound,
          upper_bound_of_gt X' kb hgt, pure, Except.pure, bind, Except.bind]
      · have hlt : kb < a.1 := lt_of_le_of_ne (hX a (by simp)) (Ne.symm hak)
        have hne : ¬ (a.1 = kb) := hak
        simp [insert_begin, insert_begin_before, hak, insert, hlt, next, upper_bound,
          pure, Except.pure]
  | some p =>
    -- a node `p` right below `kb`
    have hne : L ≠ [] := by
      intro h; rw [h] at hl; simp at hl
    have hbeg2 : ¬ (mapBegin X = mapBegin (L ++ X)) := by
      rw [mapBegin_append_left _ _ hne]
      intro h
      cases X with
      | nil => exact hne (mapBegin_eq_none.mp h.symm)
      | cons a X' =>
        obtain ⟨e, he, hek⟩ := mapBegin_mem h.symm
        have h1 : e.1 < kb := hL e he
        have h2 : kb ≤ a.1 := hX a (by simp)
        rw [hek] at h1
        exact absurd h1 (not_lt.mpr h2)
    have hprev : prev (L ++ X) (mapBegin X) = some p := by
      cases X with
      | nil => simp [prev_none, hl]
      | cons a X' =>
        rw [mapBegin_cons, prev_some L (a :: X') a.1
          (fun e he => lt_of_lt_of_le (hL e he) (hX a (by simp)))
          (fun e he => by
            rcases List.mem_cons.mp he with rfl | he
            · exact le_refl _
            · exact le_of_lt (sorted_cons_lt hs e he))]
        exact hl
    by_cases hp : p.2 = val
    · rw [beginPhase_merge d L X p kb val hl hp]
      by_cases hrep : mapBegin X = some kb
      · rw [hrep] at hprev hbeg2
        simp [insert_begin, replace_begin, hrep, hprev, hp, hbeg2, pure, Except.pure, bind,
          Except.bind]
      · simp [insert_begin, insert_begin_before, hrep, hprev, hp, hbeg2, pure, Except.pure]
    · rw [beginPhase_no_merge d L X p kb val hl hp]
      cases X with
      | nil =>
        have hia : insert_or_assign (L ++ []) kb val = L ++ [(kb, val)] :=
          insert_or_assign_split L [] kb val hL (by simp)
        simp only [List.append_nil, mapBegin_nil] at hia hprev hbeg2
        simp [insert_begin, insert_begin_before, hprev, hp, hbeg2, hia, pure, Except.pure]
      | cons a X' =>
        by_cases hak : a.1 = kb
        · have hgt : ∀ e ∈ X', kb < e.1 := fun e he => hak ▸ sorted_cons_lt hs e he
          have hsec : second (L ++ a :: X') kb = some a.2 := by
            have := second_append L X' kb a.2 hL
            rw [← hak] at this ⊢
            exact this
          have hia : insert_or_assign (L ++ a :: X') kb val = L ++ (kb, val) :: X' := by
            have := insert_or_assign_replace L X' kb a.2 val hL
            rw [← hak] at this ⊢
            exact this
          have hnext : next (L ++ (kb, val) :: X') kb = mapBegin X' := by
            unfold next
            rw [upper_bound_append_le _ _ _ (fun e he => le_of_lt (hL e he))]
            simp [upper_bound, upper_bound_of_gt X' kb hgt]
          rw [mapBegin_cons, hak] at hprev hbeg2
          simp [insert_begin, replace_begin, hak, hprev, hp, hbeg2, hsec, hia, hnext, pure,
            Except.pure, bind, Except.bind]
        · have hlt : kb < a.1 := lt_of_le_of_ne (hX a (by simp)) (Ne.symm hak)
          have hgt : ∀ e ∈ a :: X', kb < e.1 := fun e he => by
            rcases List.mem_cons.mp he with rfl | he
            · exact hlt
            · exact lt_trans hlt (sorted_cons_lt hs e he)
          have hia : insert_or_assign (L ++ a :: X') kb val = L ++ (kb, val) :: a :: X' :=
            insert_or_assign_split L (a :: X') kb val hL hgt
          rw [mapBegin_cons] at hprev hbeg2
          simp [insert_begin, insert_begin_before, hak, hprev, hp, hbeg2, hia, pure,
            Except.pure]

end BeginPhase

end IntervalMap

namespace IntervalMap

section EndPhase

variable {K V : Type} [LinearOrder K]

open interval_map

theorem sorted_insert_mid {A B : List (K × V)} {k : K} (v : V) (h : Sorted (A ++ B))
    (hA : ∀ a ∈ A, a.1 < k) (hB : ∀ b ∈ B, k < b.1) : Sorted (A ++ (k, v) :: B) := by
  unfold Sorted at *
  rw [List.pairwise_append] at h ⊢
  refine ⟨h.1, List.pairwise_cons.mpr ⟨fun b hb => hB b hb, h.2.1⟩, ?_⟩
  intro a ha b hb
  rcases List.mem_cons.mp hb with rfl | hb
  · exact hA a ha
  · exact h.2.2 a ha b hb

theorem gt_of_ge_of_mapBegin_ne {R : List (K × V)} {k : K} (hR : ∀ e ∈ R, k ≤ e.1)
    (hs : Sorted R) (hne : mapBegin R ≠ some k) : ∀ e ∈ R, k < e.1 := by
  cases R with
  | nil => simp
  | cons a R' =>
    have hak : a.1 ≠ k := fun h => hne (by simp [h])
    have hlt : k < a.1 := lt_of_le_of_ne (hR a (by simp)) (Ne.symm hak)
    intro e he
    rcases List.mem_cons.mp he with rfl | he
    · exact hlt
    · exact lt_trans hlt (sorted_cons_lt hs e he)

theorem trim_same (s : interval_map K V) (t : Option K) : trim s t t = Except.ok s := by
  simp [trim, pure, Except.pure]

theorem trim_none (s : interval_map K V) (t : Option K) : trim s none t = Except.ok s := by
  unfold trim
  split <;> rfl

theorem trim_inverted (s : interval_map K V) (a b : K) (h : b < a) :
    trim s (some a) (some b) = Except.ok s := by
  have hne : ¬ (a = b) := fun hab => absurd h (by simp [hab])
  simp [trim, hne, h, pure, Except.pure]

theorem mapBegin_le {T : List (K × V)} {c : K} (hs : Sorted T) (hc : mapBegin T = some c) :
    ∀ e ∈ T, c ≤ e.1 := by
  cases T with
  | nil => simp
  | cons a T' =>
    simp only [mapBegin_cons, Option.some.injEq] at hc
    subst hc
    intro e he
    rcases List.mem_cons.mp he with rfl | he
    · exact le_refl _
    · exact le_of_lt (sorted_cons_lt hs e he)

theorem mapBegin_exists {T : List (K × V)} (hT : T ≠ []) : ∃ c, mapBegin T = some c := by
  cases T with
  | nil => exact absurd rfl hT
  | cons a T' => exact ⟨a.1, rfl⟩

/-- Trimming from the first node of a non-empty middle part `T` up to the first
node of `R` removes exactly `T`. -/
theorem trim_mid (d : V) (P T R : List (K × V)) (hP : P ≠ []) (hT : T ≠ [])
    (hs : Sorted (P ++ T ++ R)) :
    trim ⟨d, P ++ T ++ R⟩ (mapBegin T) (mapBegin R) = Except.ok ⟨d, P ++ R⟩ := by
  obtain ⟨c, hc⟩ := mapBegin_exists hT
  obtain ⟨b, hb⟩ := mapBegin_exists hP
  obtain ⟨ec, hecT, hec⟩ := mapBegin_mem hc
  obtain ⟨eb, hebP, heb⟩ := mapBegin_mem hb
  have hsPT : Sorted (P ++ T) := sorted_left hs
  have hsT : Sorted T := sorted_right hsPT
  have hsR : Sorted R := sorted_right hs
  have hbc : b < c := by
    have := sorted_append_lt hsPT eb hebP ec hecT
    rwa [heb, hec] at this
  have hcT : ∀ e ∈ T, c ≤ e.1 := mapBegin_le hsT hc
  have hTR : ∀ e ∈ T, ∀ r ∈ R, e.1 < r.1 := fun e he r hr =>
    sorted_append_lt hs e (by simp [he]) r hr
  have hPc : ∀ e ∈ P, e.1 < c := fun e he => by
    have := sorted_append_lt hsPT e he ec hecT
    rwa [hec] at this
  have hcR : ∀ r ∈ R, c < r.1 := fun r hr => by
    have := hTR ec hecT r hr
    rwa [hec] at this
  have hne : ¬ (some c = mapBegin R) := fun h => mapBegin_ne_of_lt hcR h.symm
  have hE : erase (P ++ T ++ R) c (mapBegin R) = P ++ R := by
    cases hr : mapBegin R with
    | none =>
      obtain rfl : R = [] := mapBegin_eq_none.mp hr
      simpa using erase_split_none P T c hPc hcT
    | some r =>
      obtain ⟨er, herR, her⟩ := mapBegin_mem hr
      exact erase_split P T R c r hPc
        (fun e he => ⟨hcT e he, her ▸ hTR e he er herR⟩) (mapBegin_le hsR hr)
  have hguard : (match mapBegin R with
      | none => false
      | some e => decide (e < c)) = false := by
    cases hr : mapBegin R with
    | none => rfl
    | some r =>
      obtain ⟨er, herR, her⟩ := mapBegin_mem hr
      have := hcR er herR
      rw [her] at this
      simp [le_of_lt this]
  have hbegin : mapBegin (P ++ T ++ R) = some b := by
    rw [List.append_assoc, mapBegin_append_left _ _ hP, hb]
  simp only [trim, hc, hne, if_false, hguard, hbegin, not_lt_of_lt hbc, hE]
  rfl

end EndPhase

end IntervalMap

namespace IntervalMap

section EndPhase2

variable {K V : Type} [LinearOrder K] [DecidableEq V]

open interval_map

/-- The end phase of `assign` followed by `trim`, on a split map whose part
`P` ends with a node carrying `val`. -/
theorem insert_end_trim_split (d vbb : V) (P Ms R : List (K × V)) (ke : K) (val : V)
    (p : K × V) (hp : P.getLast? = some p) (hpv : p.2 = val)
    (hPM : ∀ e ∈ P ++ Ms, e.1 < ke) (hR : ∀ e ∈ R, ke ≤ e.1)
    (hs : Sorted (P ++ Ms ++ R)) :
    ∃ s2 te,
      insert_end ⟨d, P ++ Ms ++ R⟩ ke val (mapBegin R) (decide (mapBegin R = some ke)) vbb
        = Except.ok (s2, te) ∧
      trim s2 (mapBegin (Ms ++ R)) te = Except.ok ⟨d, P ++ endPhase Ms R ke val vbb⟩ := by
  have hPne : P ≠ [] := by
    intro h; rw [h] at hp; simp at hp
  have hsR : Sorted R := sorted_right hs
  obtain ⟨b, hb⟩ := mapBegin_exists hPne
  obtain ⟨eb, hebP, heb⟩ := mapBegin_mem hb
  have hbegin : mapBegin (P ++ Ms ++ R) = some b := by
    rw [List.append_assoc, mapBegin_append_left _ _ hPne, hb]
  have hbke : b < ke := heb ▸ hPM eb (by simp [hebP])
  have hbMR : ∀ e ∈ Ms ++ R, b < e.1 := fun e he => by
    have h1 : Sorted (P ++ (Ms ++ R)) := by simpa using hs
    exact heb ▸ sorted_append_lt h1 eb hebP e he
  by_cases hrep : mapBegin R = some ke
  · -- a node is stored at `ke`
    cases R with
    | nil => simp at hrep
    | cons a R' =>
      have hak : a.1 = ke := by simpa using hrep
      have hgt : ∀ e ∈ R', ke < e.1 := fun e he => hak ▸ sorted_cons_lt hsR e he
      have hsec : second (P ++ Ms ++ a :: R') ke = some a.2 := by
        have := second_append (P ++ Ms) R' ke a.2 hPM
        rw [← hak] at this ⊢
        exact this
      by_cases hav : a.2 = val
      · have hnext : next (P ++ Ms ++ a :: R') ke = mapBegin R' := by
          unfold next
          rw [upper_bound_append_le _ _ _ (fun e he => le_of_lt (hPM e he))]
          simp [upper_bound, hak, upper_bound_of_gt R' ke hgt]
        refine ⟨⟨d, P ++ Ms ++ a :: R'⟩, mapBegin R', ?_, ?_⟩
        · simp only [List.append_assoc] at hsec hnext
          simp [insert_end, replace_end, hsec, hav, hnext, hak, pure, Except.pure, Except.map]
        · have hs2 : Sorted (P ++ (Ms ++ [a]) ++ R') := by simpa using hs
          have := trim_mid d P (Ms ++ [a]) R' hPne (by simp) hs2
          have hmb : mapBegin (Ms ++ [a]) = mapBegin (Ms ++ a :: R') := by
            cases Ms <;> rfl
          rw [hmb] at this
          simpa [endPhase, hak, hav] using this
      · refine ⟨⟨d, P ++ Ms ++ a :: R'⟩, some ke, ?_, ?_⟩
        · simp only [List.append_assoc] at hsec
          simp [insert_end, replace_end, hsec, hav, hak, pure, Except.pure, Except.map]
        · have hend : endPhase Ms (a :: R') ke val vbb = a :: R' := by
            simp [endPhase, hak, hav]
          rw [hend]
          by_cases hMs : Ms = []
          · subst hMs
            simpa [hak] using trim_same (⟨d, P ++ a :: R'⟩ : interval_map K V) (some ke)
          · have := trim_mid d P Ms (a :: R') hPne hMs hs
            rw [mapBegin_cons, hak] at this
            rw [mapBegin_append_left _ _ hMs]
            exact this
  · -- no node is stored at `ke`
    have hgt : ∀ e ∈ R, ke < e.1 := gt_of_ge_of_mapBegin_ne hR hsR hrep
    have hbeg2 : ¬ (mapBegin R = mapBegin (P ++ Ms ++ R)) := by
      rw [hbegin]
      intro h
      obtain ⟨e, he, hek⟩ := mapBegin_mem h
      have := hgt e he
      rw [hek] at this
      exact absurd (lt_trans hbke this) (lt_irrefl _)
    obtain ⟨q, hq, hqv⟩ : ∃ q, (P ++ Ms).getLast? = some q ∧ q.2 = lastVal val Ms := by
      cases hm : Ms.getLast? with
      | none => exact ⟨p, by simp [hm, hp], by simp [lastVal, hm, hpv]⟩
      | some q => exact ⟨q, by simp [hm], by simp [lastVal, hm]⟩
    have hprev : prev (P ++ Ms ++ R) (mapBegin R) = some q := by
      cases hr : mapBegin R with
      | none =>
        obtain rfl : R = [] := mapBegin_eq_none.mp hr
        simpa [prev_none] using hq
      | some r =>
        obtain ⟨er, herR, her⟩ := mapBegin_mem hr
        rw [prev_some (P ++ Ms) R r
          (fun e he => her ▸ lt_trans (hPM e he) (hgt er herR)) (mapBegin_le hsR hr)]
        exact hq
    have hins : ∀ x : V, insert (P ++ Ms ++ R) ke x = P ++ Ms ++ (ke, x) :: R :=
      fun x => insert_split (P ++ Ms) R ke x hPM hgt
    have hsins : ∀ x : V, Sorted (P ++ Ms ++ (ke, x) :: R) :=
      fun x => sorted_insert_mid x hs hPM hgt
    have hskip : ∀ (m : List (K × V)) (t : K), t ≤ ke →
        trim ⟨d, m⟩ (mapBegin R) (some t) = Except.ok ⟨d, m⟩ := by
      intro m t ht
      cases hr : mapBegin R with
      | none => exact trim_none _ _
      | some r =>
        obtain ⟨er, herR, her⟩ := mapBegin_mem hr
        exact trim_inverted _ _ _ (her ▸ lt_of_le_of_lt ht (hgt er herR))
    by_cases hqval : lastVal val Ms = val
    · by_cases hvbb : vbb = val
      · refine ⟨⟨d, P ++ Ms ++ R⟩, some b, ?_, ?_⟩
        · have hbeg3 : ¬ (mapBegin R = some b) := hbegin ▸ hbeg2
          simp only [List.append_assoc] at hbeg2 hprev hins hbegin
          simp [insert_end, insert_end_before, hrep, hbeg2, hprev, hqv, hqval, hvbb, hbegin,
            hbeg3, pure, Except.pure]
        · have hend : endPhase Ms R ke val vbb = Ms ++ R := by
            simp [endPhase, hrep, hqval, hvbb]
          rw [hend, ← List.append_assoc]
          cases hm : mapBegin (Ms ++ R) with
          | none => exact trim_none _ _
          | some s =>
            obtain ⟨es, hes, hess⟩ := mapBegin_mem hm
            exact trim_inverted _ _ _ (hess ▸ hbMR es hes)
      · refine ⟨⟨d, P ++ Ms ++ (ke, vbb) :: R⟩, some ke, ?_, ?_⟩
        · simp only [List.append_assoc] at hbeg2 hprev hins hbegin
          simp [insert_end, insert_end_before, hrep, hbeg2, hprev, hqv, hqval, hvbb, hins,
            pure, Except.pure]
        · have hend : endPhase Ms R ke val vbb = (ke, vbb) :: R := by
            simp [endPhase, hrep, hqval, hvbb]
          rw [hend]
          by_cases hMs : Ms = []
          · subst hMs
            simpa using hskip (P ++ (ke, vbb) :: R) ke (le_refl _)
          · have := trim_mid d P Ms ((ke, vbb) :: R) hPne hMs (hsins vbb)
            rw [mapBegin_cons] at this
            rw [mapBegin_append_left _ _ hMs]
            exact this
    · have hMs : Ms ≠ [] := by
        intro h; subst h; exact hqval (by simp [lastVal])
      refine ⟨⟨d, P ++ Ms ++ (ke, lastVal val Ms) :: R⟩, some ke, ?_, ?_⟩
      · simp only [List.append_assoc] at hbeg2 hprev hins hbegin
        simp [insert_end, insert_end_before, hrep, hbeg2, hprev, hqv, hqval, hins,
          pure, Except.pure]
      · have hend : endPhase Ms R ke val vbb = (ke, lastVal val Ms) :: R := by
          simp [endPhase, hrep, hqval]
        rw [hend]
        have := trim_mid d P Ms ((ke, lastVal val Ms) :: R) hPne hMs (hsins _)
        rw [mapBegin_cons] at this
        rw [mapBegin_append_left _ _ hMs]
        exact this

end EndPhase2

end IntervalMap

namespace IntervalMap

section AssignSplit

variable {K V : Type} [LinearOrder K] [DecidableEq V]

open interval_map

theorem beginPhase_append (d : V) (L M R : List (K × V)) (kb : K) (val : V)
    (hR : ∀ e ∈ R, kb < e.1) :
    beginPhase d L (M ++ R) kb val =
      ((beginPhase d L M kb val).1, (beginPhase d L M kb val).2.1 ++ R,
        (beginPhase d L M kb val).2.2) := by
  unfold beginPhase
  split
  · rfl
  · cases M with
    | nil =>
      cases R with
      | nil => rfl
      | cons r R' =>
        have : ¬ (r.1 = kb) := fun h => absurd (hR r (by simp)) (by simp [h])
        simp [this]
    | cons a M' =>
      by_cases hak : a.1 = kb <;> simp [hak]

/-- What the begin phase leaves: `P` ends with a node carrying `val`, every key
of `P ++ Ms` is below `ke`, and the map is still sorted. -/
theorem beginPhase_facts (d : V) (L M R : List (K × V)) (kb ke : K) (val : V) (hlt : kb < ke)
    (hL : ∀ e ∈ L, e.1 < kb) (hM : ∀ e ∈ M, kb ≤ e.1 ∧ e.1 < ke) (hR : ∀ e ∈ R, ke ≤ e.1)
    (hs : Sorted (L ++ M ++ R)) :
    (∃ p, (beginPhase d L M kb val).1.getLast? = some p ∧ p.2 = val) ∧
    (∀ e ∈ (beginPhase d L M kb val).1 ++ (beginPhase d L M kb val).2.1, e.1 < ke) ∧
    Sorted ((beginPhase d L M kb val).1 ++ (beginPhase d L M kb val).2.1 ++ R) := by
  have hLke : ∀ e ∈ L, e.1 < ke := fun e he => lt_trans (hL e he) hlt
  have hsMR : Sorted (M ++ R) := by
    have : Sorted (L ++ (M ++ R)) := by simpa using hs
    exact sorted_right this
  have hnomerge : ∀ Ms : List (K × V), (∀ e ∈ Ms, e ∈ M) → (∀ e ∈ Ms, kb < e.1) →
      Sorted (L ++ (Ms ++ R)) →
      (∃ p, (L ++ [(kb, val)]).getLast? = some p ∧ p.2 = val) ∧
      (∀ e ∈ (L ++ [(kb, val)]) ++ Ms, e.1 < ke) ∧
      Sorted ((L ++ [(kb, val)]) ++ Ms ++ R) := by
    intro Ms hsub hgt hsorted
    refine ⟨⟨(kb, val), by simp, rfl⟩, ?_, ?_⟩
    · intro e he
      simp only [List.mem_append, List.mem_singleton] at he
      rcases he with (he | rfl) | he
      · exact hLke e he
      · exact hlt
      · exact (hM e (hsub e he)).2
    · have := sorted_insert_mid val hsorted hL (fun e he => by
        rcases List.mem_append.mp he with he | he
        · exact hgt e he
        · exact lt_of_lt_of_le hlt (hR e he))
      simpa using this
  by_cases hmerge : (match L.getLast? with
      | some p => decide (p.2 = val)
      | none => false) = true
  · have hb : beginPhase d L M kb val = (L, M, val) := by simp [beginPhase, hmerge]
    rw [hb]
    refine ⟨?_, ?_, hs⟩
    · cases hl : L.getLast? with
      | none => simp [hl] at hmerge
      | some p => exact ⟨p, rfl, by simpa [hl] using hmerge⟩
    · intro e he
      rcases List.mem_append.mp he with he | he
      · exact hLke e he
      · exact (hM e he).2
  · cases M with
    | nil =>
      have hb : beginPhase d L [] kb val = (L ++ [(kb, val)], [], lastVal d L) := by
        simp [beginPhase, hmerge]
      rw [hb]
      exact hnomerge [] (by simp) (by simp) (by simpa using hs)
    | cons a M' =>
      by_cases hak : a.1 = kb
      · have hb : beginPhase d L (a :: M') kb val = (L ++ [(kb, val)], M', a.2) := by
          simp [beginPhase, hmerge, hak]
        rw [hb]
        have hsM : Sorted (a :: M') := sorted_left hsMR
        refine hnomerge M' (fun e he => by simp [he])
          (fun e he => hak ▸ sorted_cons_lt hsM e he) ?_
        have h1 : Sorted (L ++ (a :: (M' ++ R))) := by simpa using hs
        unfold Sorted at h1 ⊢
        rw [List.pairwise_append] at h1 ⊢
        exact ⟨h1.1, (List.pairwise_cons.mp h1.2.1).2,
          fun x hx y hy => h1.2.2 x hx y (by simp [hy])⟩
      · have hb : beginPhase d L (a :: M') kb val
            = (L ++ [(kb, val)], a :: M', lastVal d L) := by
          simp [beginPhase, hmerge, hak]
        rw [hb]
        have hsM : Sorted (a :: M') := sorted_left hsMR
        refine hnomerge (a :: M') (fun e he => he) ?_ (by simpa using hs)
        exact gt_of_ge_of_mapBegin_ne (fun e he => (hM e he).1) hsM (by simpa using hak)

/-- The embedded `assign` computes `assignRef` on every split sorted map. -/
theorem assign_split (d : V) (L M R : List (K × V)) (kb ke : K) (val : V) (hlt : kb < ke)
    (hL : ∀ e ∈ L, e.1 < kb) (hM : ∀ e ∈ M, kb ≤ e.1 ∧ e.1 < ke) (hR : ∀ e ∈ R, ke ≤ e.1)
    (hs : Sorted (L ++ M ++ R)) :
    assign ⟨d, L ++ M ++ R⟩ kb ke val = Except.ok ⟨d, assignRef d L M R kb ke val⟩ := by
  have hsMR : Sorted (M ++ R) := by
    have : Sorted (L ++ (M ++ R)) := by simpa using hs
    exact sorted_right this
  have hfb : find_insertion_point ⟨d, L ++ M ++ R⟩ kb
      = (decide (mapBegin (M ++ R) = some kb), mapBegin (M ++ R)) := by
    rw [List.append_assoc]
    exact find_insertion_point_split d L (M ++ R) kb hL (fun e he => by
      rcases List.mem_append.mp he with he | he
      · exact (hM e he).1
      · exact le_trans (le_of_lt hlt) (hR e he)) hsMR
  have hfe : find_insertion_point ⟨d, L ++ M ++ R⟩ ke
      = (decide (mapBegin R = some ke), mapBegin R) :=
    find_insertion_point_split d (L ++ M) R ke (fun e he => by
      rcases List.mem_append.mp he with he | he
      · exact lt_trans (hL e he) hlt
      · exact (hM e he).2) hR (sorted_right hs)
  have hbegin := insert_begin_split d d L (M ++ R) kb val hL (fun e he => by
      rcases List.mem_append.mp he with he | he
      · exact (hM e he).1
      · exact le_trans (le_of_lt hlt) (hR e he)) hsMR
  rw [beginPhase_append d L M R kb val (fun e he => lt_of_lt_of_le hlt (hR e he))] at hbegin
  obtain ⟨⟨p, hp, hpv⟩, hPM, hsorted⟩ := beginPhase_facts d L M R kb ke val hlt hL hM hR hs
  obtain ⟨s2, te, h1, h2⟩ := insert_end_trim_split d (beginPhase d L M kb val).2.2
    (beginPhase d L M kb val).1 (beginPhase d L M kb val).2.1 R ke val p hp hpv hPM hR hsorted
  simp only [List.append_assoc] at hbegin h1
  unfold assign
  simp only [hlt, not_true_eq_false, if_false, hfb, hfe]
  simp only [List.append_assoc, hbegin, bind, Except.bind, h1]
  exact h2

end AssignSplit

end IntervalMap

namespace IntervalMap

section Consequences

variable {K V : Type} [LinearOrder K] [DecidableEq V]

open interval_map

/-- Every sorted list splits at a key into the nodes below and the nodes at or above. -/
theorem exists_split_at (m : List (K × V)) (hs : Sorted m) (k : K) :
    ∃ A B, m = A ++ B ∧ (∀ e ∈ A, e.1 < k) ∧ (∀ e ∈ B, k ≤ e.1) := by
  induction m with
  | nil => exact ⟨[], [], rfl, by simp, by simp⟩
  | cons a m ih =>
    by_cases ha : a.1 < k
    · obtain ⟨A, B, hm, hA, hB⟩ := ih (sorted_tail hs)
      refine ⟨a :: A, B, by simp [hm], ?_, hB⟩
      intro e he
      rcases List.mem_cons.mp he with rfl | he
      · exact ha
      · exact hA e he
    · refine ⟨[], a :: m, rfl, by simp, ?_⟩
      intro e he
      rcases List.mem_cons.mp he with rfl | he
      · exact not_lt.mp ha
      · exact le_trans (not_lt.mp ha) (le_of_lt (sorted_cons_lt hs e he))

/-- Every sorted list splits at two keys `kb < ke` into three parts. -/
theorem exists_split (m : List (K × V)) (hs : Sorted m) (kb ke : K) :
    ∃ L M R, m = L ++ M ++ R ∧ (∀ e ∈ L, e.1 < kb) ∧ (∀ e ∈ M, kb ≤ e.1 ∧ e.1 < ke) ∧
      (∀ e ∈ R, ke ≤ e.1) := by
  obtain ⟨L, X, hm, hL, hX⟩ := exists_split_at m hs kb
  have hsX : Sorted X := by rw [hm] at hs; exact sorted_right hs
  obtain ⟨M, R, hX2, hM, hR⟩ := exists_split_at X hsX ke
  refine ⟨L, M, R, by rw [hm, hX2, List.append_assoc], hL, ?_, hR⟩
  intro e he
  exact ⟨hX e (by rw [hX2]; simp [he]), hM e he⟩

theorem sorted_drop_mid {P T R : List (K × V)} (hs : Sorted (P ++ T ++ R)) : Sorted (P ++ R) := by
  have hsub : List.Sublist (P ++ R) (P ++ T ++ R) := by
    rw [List.append_assoc]
    exact List.Sublist.append (List.Sublist.refl P) (List.sublist_append_right T R)
  exact List.Pairwise.sublist hsub hs

/-- The end phase keeps the map sorted. -/
theorem endPhase_sorted (P Ms R : List (K × V)) (ke : K) (val vbb : V)
    (hPM : ∀ e ∈ P ++ Ms, e.1 < ke) (hR : ∀ e ∈ R, ke ≤ e.1) (hs : Sorted (P ++ Ms ++ R)) :
    Sorted (P ++ endPhase Ms R ke val vbb) := by
  have hPR : Sorted (P ++ R) := sorted_drop_mid hs
  have hP : ∀ e ∈ P, e.1 < ke := fun e he => hPM e (by simp [he])
  unfold endPhase
  by_cases hrep : mapBegin R = some ke
  · rw [if_pos hrep]
    cases R with
    | nil => simpa using sorted_left hPR
    | cons a R' =>
      simp only []
      by_cases hav : a.2 = val
      · rw [if_pos hav]
        have : Sorted (P ++ [a] ++ R') := by simpa using hPR
        exact sorted_drop_mid this
      · rw [if_neg hav]; exact hPR
  · rw [if_neg hrep]
    have hgt : ∀ e ∈ R, ke < e.1 := gt_of_ge_of_mapBegin_ne hR (sorted_right hs) hrep
    by_cases h1 : lastVal val Ms ≠ val
    · rw [if_pos h1]; exact sorted_insert_mid _ hPR hP hgt
    · rw [if_neg h1]
      by_cases h2 : vbb ≠ val
      · rw [if_pos h2]; exact sorted_insert_mid _ hPR hP hgt
      · rw [if_neg h2, ← List.append_assoc]; exact hs

/-- The list `assign` leaves on a split sorted map is sorted. -/
theorem assignRef_sorted (d : V) (L M R : List (K × V)) (kb ke : K) (val : V) (hlt : kb < ke)
    (hL : ∀ e ∈ L, e.1 < kb) (hM : ∀ e ∈ M, kb ≤ e.1 ∧ e.1 < ke) (hR : ∀ e ∈ R, ke ≤ e.1)
    (hs : Sorted (L ++ M ++ R)) : Sorted (assignRef d L M R kb ke val) := by
  obtain ⟨_, hPM, hsorted⟩ := beginPhase_facts d L M R kb ke val hlt hL hM hR hs
  exact endPhase_sorted _ _ R ke val _ hPM hR hsorted

/-- On a sorted map `assign` always returns a state, with the default value unchanged
and a sorted breakpoint list. -/
theorem assign_sorted_ok (s : interval_map K V) (hs : Sorted s.m_map) (kb ke : K) (val : V) :
    ∃ m, assign s kb ke val = Except.ok ⟨s.m_valBegin, m⟩ ∧ Sorted m := by
  by_cases hlt : kb < ke
  · obtain ⟨L, M, R, hm, hL, hM, hR⟩ := exists_split s.m_map hs kb ke
    obtain ⟨d, m⟩ := s
    simp only at hm hs ⊢
    subst hm
    exact ⟨_, assign_split d L M R kb ke val hlt hL hM hR hs,
      assignRef_sorted d L M R kb ke val hlt hL hM hR hs⟩
  · exact ⟨s.m_map, by simp [assign, hlt, pure, Except.pure], hs⟩

/-- Every reachable state has strictly increasing keys. -/
theorem reachable_sorted {s : interval_map K V} (h : Reachable s) : Sorted s.m_map := by
  induction h with
  | fresh d => exact List.Pairwise.nil
  | step kb ke val _ hstep ih =>
    obtain ⟨m, hm, hsorted⟩ := assign_sorted_ok _ ih kb ke val
    rw [hm] at hstep
    cases hstep
    exact hsorted

end Consequences

end IntervalMap

namespace IntervalMap

section Idempotence

variable {K V : Type} [LinearOrder K] [DecidableEq V]

open interval_map

/-- The result of the end phase splits again at `ke`, and the end phase run on
that split with `*valBeforeBegin = val` changes nothing. -/
theorem endPhase_resplit (Ms R : List (K × V)) (ke : K) (val vbb : V)
    (hR : ∀ e ∈ R, ke ≤ e.1) (hsR : Sorted R) :
    ∃ Ms2 R2, endPhase Ms R ke val vbb = Ms2 ++ R2 ∧ (∀ e ∈ Ms2, e ∈ Ms) ∧
      (∀ e ∈ R2, ke ≤ e.1) ∧ endPhase Ms2 R2 ke val val = Ms2 ++ R2 := by
  by_cases hrep : mapBegin R = some ke
  · cases R with
    | nil => simp at hrep
    | cons a R' =>
      have hak : a.1 = ke := by simpa using hrep
      have hgt : ∀ e ∈ R', ke < e.1 := fun e he => hak ▸ sorted_cons_lt hsR e he
      by_cases hav : a.2 = val
      · refine ⟨[], R', by simp [endPhase, hak, hav], by simp,
          fun e he => le_of_lt (hgt e he), ?_⟩
        simp [endPhase, mapBegin_ne_of_lt hgt, lastVal]
      · refine ⟨[], a :: R', by simp [endPhase, hak, hav], by simp, hR, ?_⟩
        simp [endPhase, hak, hav]
  · by_cases h1 : lastVal val Ms = val
    · by_cases h2 : vbb = val
      · refine ⟨Ms, R, by simp [endPhase, hrep, h1, h2], fun e he => he, hR, ?_⟩
        simp [endPhase, hrep, h1]
      · refine ⟨[], (ke, vbb) :: R, by simp [endPhase, hrep, h1, h2], by simp, ?_, ?_⟩
        · intro e he
          rcases List.mem_cons.mp he with rfl | he
          · exact le_refl _
          · exact hR e he
        · simp [endPhase, h2]
    · refine ⟨[], (ke, lastVal val Ms) :: R, by simp [endPhase, hrep, h1], by simp, ?_, ?_⟩
      · intro e he
        rcases List.mem_cons.mp he with rfl | he
        · exact le_refl _
        · exact hR e he
      · simp [endPhase, h1]

/-- The begin phase either merges with the node before `kb` or puts `(kb, val)`
right after `L`; the nodes it leaves after `kb` are nodes of `M`. -/
theorem beginPhase_cases (d : V) (L M : List (K × V)) (kb : K) (val : V) :
    ((beginPhase d L M kb val).1 = L ∧ ∀ X, beginPhase d L X kb val = (L, X, val)) ∨
    ((beginPhase d L M kb val).1 = L ++ [(kb, val)] ∧
      ∀ X, beginPhase d L ((kb, val) :: X) kb val = (L ++ [(kb, val)], X, val)) := by
  by_cases hmerge : (match L.getLast? with
      | some p => decide (p.2 = val)
      | none => false) = true
  · left
    exact ⟨by simp [beginPhase, hmerge], fun X => by simp [beginPhase, hmerge]⟩
  · right
    refine ⟨?_, fun X => by simp [beginPhase, hmerge]⟩
    unfold beginPhase
    rw [if_neg hmerge]
    cases M with
    | nil => rfl
    | cons a M' => by_cases hak : a.1 = kb <;> simp [hak]

theorem beginPhase_mem (d : V) (L M : List (K × V)) (kb : K) (val : V) :
    ∀ e ∈ (beginPhase d L M kb val).2.1, e ∈ M := by
  unfold beginPhase
  split
  · exact fun e he => he
  · cases M with
    | nil => simp
    | cons a M' =>
      by_cases hak : a.1 = kb
      · simp only [hak, if_true]
        exact fun e he => by simp [he]
      · simp only [hak, if_false]
        exact fun e he => he

/-- Running `assign` again on the map it produced changes nothing. -/
theorem assign_assignRef (d : V) (L M R : List (K × V)) (kb ke : K) (val : V) (hlt : kb < ke)
    (hL : ∀ e ∈ L, e.1 < kb) (hM : ∀ e ∈ M, kb ≤ e.1 ∧ e.1 < ke) (hR : ∀ e ∈ R, ke ≤ e.1)
    (hs : Sorted (L ++ M ++ R)) :
    assign ⟨d, assignRef d L M R kb ke val⟩ kb ke val
      = Except.ok ⟨d, assignRef d L M R kb ke val⟩ := by
  have hsorted := assignRef_sorted d L M R kb ke val hlt hL hM hR hs
  obtain ⟨Ms2, R2, hE, hsub, hR2, hidem⟩ :=
    endPhase_resplit (beginPhase d L M kb val).2.1 R ke val (beginPhase d L M kb val).2.2 hR
      (sorted_right hs)
  have hMs2 : ∀ e ∈ Ms2, kb ≤ e.1 ∧ e.1 < ke := fun e he =>
    hM e (beginPhase_mem d L M kb val e (hsub e he))
  rcases beginPhase_cases d L M kb val with ⟨h1, hX⟩ | ⟨h1, hX⟩
  · have hr : assignRef d L M R kb ke val = L ++ Ms2 ++ R2 := by
      simp only [assignRef, h1, hE, List.append_assoc]
    rw [hr] at hsorted ⊢
    have := assign_split d L Ms2 R2 kb ke val hlt hL hMs2 hR2 hsorted
    rw [this]
    simp only [assignRef, hX Ms2, hidem, List.append_assoc]
  · have hr : assignRef d L M R kb ke val = L ++ ((kb, val) :: Ms2) ++ R2 := by
      simp only [assignRef, h1, hE, List.append_assoc, List.singleton_append, List.cons_append,
        List.nil_append]
    rw [hr] at hsorted ⊢
    have := assign_split d L ((kb, val) :: Ms2) R2 kb ke val hlt hL (fun e he => by
      rcases List.mem_cons.mp he with rfl | he
      · exact ⟨le_refl _, hlt⟩
      · exact hMs2 e he) hR2 hsorted
    rw [this]
    simp only [assignRef, hX Ms2, hidem, List.append_assoc, List.singleton_append,
      List.cons_append, List.nil_append]

end Idempotence

end IntervalMap

/-! ## Lookup -/

namespace IntervalMap

section Lookup

variable {K V : Type} [LinearOrder K] [DecidableEq V]

open interval_map

/-- Every sorted list splits at a key into the nodes at or below and the nodes above. -/
theorem exists_split_le (m : List (K × V)) (hs : Sorted m) (k : K) :
    ∃ A B, m = A ++ B ∧ (∀ e ∈ A, e.1 ≤ k) ∧ (∀ e ∈ B, k < e.1) := by
  induction m with
  | nil => exact ⟨[], [], rfl, by simp, by simp⟩
  | cons a m ih =>
    by_cases ha : a.1 ≤ k
    · obtain ⟨A, B, hm, hA, hB⟩ := ih (sorted_tail hs)
      refine ⟨a :: A, B, by simp [hm], ?_, hB⟩
      intro e he
      rcases List.mem_cons.mp he with rfl | he
      · exact ha
      · exact hA e he
    · refine ⟨[], a :: m, rfl, by simp, ?_⟩
      intro e he
      rcases List.mem_cons.mp he with rfl | he
      · exact not_le.mp ha
      · exact lt_trans (not_le.mp ha) (sorted_cons_lt hs e he)

/-- Lookup `operator[]` on a map split at the key: the value of the last node at or
below the key, the default value when there is none. -/
theorem get_split (d : V) (A B : List (K × V)) (key : K) (hA : ∀ e ∈ A, e.1 ≤ key)
    (hB : ∀ e ∈ B, key < e.1) (hs : Sorted (A ++ B)) :
    interval_map.get ⟨d, A ++ B⟩ key = lastVal d A := by
  have hub : upper_bound (A ++ B) key = mapBegin B := by
    rw [upper_bound_append_le A B key hA, upper_bound_of_gt B key hB]
  unfold interval_map.get
  simp only [hub]
  cases hl : A.getLast? with
  | none =>
    obtain rfl : A = [] := List.getLast?_eq_none_iff.mp hl
    simp [lastVal]
  | some q =>
    have hne : A ≠ [] := by
      intro h; rw [h] at hl; simp at hl
    have hbeg : ¬ (mapBegin B = mapBegin (A ++ B)) := by
      rw [mapBegin_append_left _ _ hne]
      intro h
      cases hb : mapBegin B with
      | none => rw [hb] at h; exact hne (mapBegin_eq_none.mp h.symm)
      | some b =>
        rw [hb] at h
        obtain ⟨e1, he1, h1⟩ := mapBegin_mem hb
        obtain ⟨e2, he2, h2⟩ := mapBegin_mem h.symm
        have := lt_of_le_of_lt (hA e2 he2) (hB e1 he1)
        rw [h1, h2] at this
        exact lt_irrefl _ this
    have hprev : prev (A ++ B) (mapBegin B) = some q := by
      cases hb : mapBegin B with
      | none =>
        obtain rfl : B = [] := mapBegin_eq_none.mp hb
        simpa [prev_none] using hl
      | some b =>
        obtain ⟨e1, he1, h1⟩ := mapBegin_mem hb
        rw [prev_some A B b (fun e he => h1 ▸ lt_of_le_of_lt (hA e he) (hB e1 he1))
          (mapBegin_le (sorted_right hs) hb)]
        exact hl
    simp [hbeg, hprev, lastVal, hl]

end Lookup

end IntervalMap

/-! ## The claims -/

namespace interval_map

open IntervalMap

section Claims

variable {K V : Type} [LinearOrder K] [DecidableEq V]

/-- One valid assignment on a freshly constructed map. -/
theorem assign_fresh (d : V) (keyBegin keyEnd : K) (val : V) (hlt : keyBegin < keyEnd)
    (hne : val ≠ d) :
    assign (new d) keyBegin keyEnd val = Except.ok ⟨d, [(keyBegin, val), (keyEnd, d)]⟩ := by
  have h := assign_split d [] [] [] keyBegin keyEnd val hlt (by simp) (by simp) (by simp)
    (by simp [Sorted])
  have hr : assignRef d ([] : List (K × V)) [] [] keyBegin keyEnd val
      = [(keyBegin, val), (keyEnd, d)] := by
    simp [assignRef, beginPhase, endPhase, lastVal, Ne.symm hne]
  rw [hr] at h
  exact h

/-- Appending a `val` range to the right of a map whose last stored value is the
default value `d`. -/
theorem assign_right (d : V) (L : List (K × V)) (p : K × V) (keyBegin keyEnd : K) (val : V)
    (hlt : keyBegin < keyEnd) (hne : val ≠ d) (hL : ∀ e ∈ L, e.1 < keyBegin)
    (hl : L.getLast? = some p) (hp : p.2 = d) (hs : Sorted L) :
    assign ⟨d, L⟩ keyBegin keyEnd val
      = Except.ok ⟨d, L ++ [(keyBegin, val), (keyEnd, d)]⟩ := by
  have h := assign_split d L [] [] keyBegin keyEnd val hlt hL (by simp) (by simp)
    (by simpa using hs)
  have hpv : ¬ (p.2 = val) := fun h => hne (h.symm.trans hp)
  have hr : assignRef d L [] [] keyBegin keyEnd val = L ++ [(keyBegin, val), (keyEnd, d)] := by
    simp [assignRef, beginPhase, endPhase, lastVal, hl, hpv, hp, Ne.symm hne]
  rw [hr] at h
  simpa using h

end Claims

end interval_map

namespace interval_map

open IntervalMap

section Claims2

variable {K V : Type} [LinearOrder K] [DecidableEq V]

/-- The bridging assignment over three stored `val` ranges. -/
theorem assign_bridge (d val : V) (a b c e f g lo hi : K) (hne : val ≠ d)
    (hab : a < b) (hbc : b < c) (hce : c < e) (hef : e < f) (hfg : f < g)
    (hlo : lo ≤ a) (hhi : g ≤ hi) :
    assign ⟨d, [(a, val), (b, d), (c, val), (e, d), (f, val), (g, d)]⟩ lo hi val
      = Except.ok ⟨d, [(lo, val), (hi, d)]⟩ := by
  have hac := lt_trans hab hbc
  have hae := lt_trans hac hce
  have haf := lt_trans hae hef
  have hag := lt_trans haf hfg
  have hbe := lt_trans hbc hce
  have hbf := lt_trans hbe hef
  have hbg := lt_trans hbf hfg
  have hcf := lt_trans hce hef
  have hcg := lt_trans hcf hfg
  have heg := lt_trans hef hfg
  have hlohi : lo < hi := lt_of_le_of_lt hlo (lt_of_lt_of_le hag hhi)
  have hdv : ¬ (d = val) := fun h => hne h.symm
  have hsorted : Sorted [(a, val), (b, d), (c, val), (e, d), (f, val), (g, d)] := by
    simp [Sorted, hab, hac, hae, haf, hag, hbc, hbe, hbf, hbg, hce, hcf, hcg, hef, heg, hfg]
  have hlow : ∀ x : K, a ≤ x → lo ≤ x := fun x hx => le_trans hlo hx
  rcases lt_or_eq_of_le hhi with hghi | hghi
  · have h := assign_split d [] [(a, val), (b, d), (c, val), (e, d), (f, val), (g, d)] []
      lo hi val hlohi (by simp) (by
        intro x hx
        simp only [List.mem_cons, List.mem_singleton, List.not_mem_nil, or_false] at hx
        rcases hx with rfl | rfl | rfl | rfl | rfl | rfl
        · exact ⟨hlo, lt_trans hag hghi⟩
        · exact ⟨hlow _ (le_of_lt hab), lt_trans hbg hghi⟩
        · exact ⟨hlow _ (le_of_lt hac), lt_trans hcg hghi⟩
        · exact ⟨hlow _ (le_of_lt hae), lt_trans heg hghi⟩
        · exact ⟨hlow _ (le_of_lt haf), lt_trans hfg hghi⟩
        · exact ⟨hlow _ (le_of_lt hag), hghi⟩) (by simp) (by simpa using hsorted)
    have hr : assignRef d [] [(a, val), (b, d), (c, val), (e, d), (f, val), (g, d)] []
        lo hi val = [(lo, val), (hi, d)] := by
      by_cases hal : a = lo <;>
        simp [assignRef, beginPhase, endPhase, lastVal, hal, hdv]
    rw [hr] at h
    simpa using h
  · subst hghi
    have h := assign_split d [] [(a, val), (b, d), (c, val), (e, d), (f, val)] [(g, d)]
      lo g val hlohi (by simp) (by
        intro x hx
        simp only [List.mem_cons, List.mem_singleton, List.not_mem_nil, or_false] at hx
        rcases hx with rfl | rfl | rfl | rfl | rfl
        · exact ⟨hlo, hag⟩
        · exact ⟨hlow _ (le_of_lt hab), hbg⟩
        · exact ⟨hlow _ (le_of_lt hac), hcg⟩
        · exact ⟨hlow _ (le_of_lt hae), heg⟩
        · exact ⟨hlow _ (le_of_lt haf), hfg⟩) (by simp) (by simpa using hsorted)
    have hr : assignRef d [] [(a, val), (b, d), (c, val), (e, d), (f, val)] [(g, d)]
        lo g val = [(lo, val), (g, d)] := by
      by_cases hal : a = lo <;>
        simp [assignRef, beginPhase, endPhase, lastVal, hal, hdv]
    rw [hr] at h
    simpa using h

end Claims2

end interval_map

namespace interval_map

open IntervalMap

section Claims3

variable {K V : Type} [LinearOrder K] [DecidableEq V]

/-- Idempotence of `assign` on every map with strictly increasing keys. -/
theorem assign_twice_of_sorted (s : interval_map K V) (hs : Sorted s.m_map) (keyBegin keyEnd : K)
    (val : V) :
    ∃ s1, assign s keyBegin keyEnd val = Except.ok s1 ∧
      assign s1 keyBegin keyEnd val = Except.ok s1 := by
  by_cases hlt : keyBegin < keyEnd
  · obtain ⟨L, M, R, hm, hL, hM, hR⟩ := exists_split s.m_map hs keyBegin keyEnd
    obtain ⟨d, m⟩ := s
    simp only at hm hs
    subst hm
    exact ⟨_, assign_split d L M R keyBegin keyEnd val hlt hL hM hR hs,
      assign_assignRef d L M R keyBegin keyEnd val hlt hL hM hR hs⟩
  · have h : assign s keyBegin keyEnd val = Except.ok s := by
      simp [assign, hlt, pure, Except.pure]
    exact ⟨s, h, h⟩

/-- C1, evaluated on the code: the state `{1 ↦ 'B', 2 ↦ 'A'}` with default `'A'`
is reachable (by `assign(1, 2, 'B')` on a fresh map), and `assign(0, 3, 'A')` on it
returns `{0 ↦ 'A', 1 ↦ 'B', 2 ↦ 'A'}`, where `operator[](1)` is `'B'`, not the
assigned `'A'`, although `0 ≤ 1 < 3`. -/
theorem assign_last_writer_counterexample :
    Reachable (⟨'A', [(1, 'B'), (2, 'A')]⟩ : interval_map Int Char) ∧
    assign (⟨'A', [(1, 'B'), (2, 'A')]⟩ : interval_map Int Char) 0 3 'A'
      = Except.ok ⟨'A', [(0, 'A'), (1, 'B'), (2, 'A')]⟩ ∧
    (⟨'A', [(0, 'A'), (1, 'B'), (2, 'A')]⟩ : interval_map Int Char).get 1 = 'B' :=
  ⟨Reachable.step 1 2 'B' (Reachable.fresh 'A') (by decide), by decide, by decide⟩

/-- C2, evaluated on the code: the state `{0 ↦ 'B', 1 ↦ 'A'}` with default `'A'`
is reachable, `operator[](2)` is `'A'` there, and `assign(0, 2, 'A')` returns
`{0 ↦ 'A', 2 ↦ 'B'}`, where `operator[](2)` is `'B'`: the value at `keyEnd` is
not the one that held before the call. -/
theorem assign_frame_counterexample :
    Reachable (⟨'A', [(0, 'B'), (1, 'A')]⟩ : interval_map Int Char) ∧
    (⟨'A', [(0, 'B'), (1, 'A')]⟩ : interval_map Int Char).get 2 = 'A' ∧
    assign (⟨'A', [(0, 'B'), (1, 'A')]⟩ : interval_map Int Char) 0 2 'A'
      = Except.ok ⟨'A', [(0, 'A'), (2, 'B')]⟩ ∧
    (⟨'A', [(0, 'A'), (2, 'B')]⟩ : interval_map Int Char).get 2 = 'B' :=
  ⟨Reachable.step 0 1 'B' (Reachable.fresh 'A') (by decide), by decide, by decide, by decide⟩

/-- C3, evaluated on the code: `assign(0, 1, 'A')` on a fresh map with default
`'A'` returns the breakpoint map `{0 ↦ 'A'}`, whose first entry carries the
default value: the reachable state is not canonical. -/
theorem assign_canonical_counterexample :
    assign (new 'A' : interval_map Int Char) 0 1 'A' = Except.ok ⟨'A', [(0, 'A')]⟩ ∧
    Reachable (⟨'A', [(0, 'A')]⟩ : interval_map Int Char) ∧
    ¬ Canonical (⟨'A', [(0, 'A')]⟩ : interval_map Int Char) :=
  ⟨by decide, Reachable.step 0 1 'A' (Reachable.fresh 'A') (by decide), by simp [Canonical]⟩

/-- C4 (no-op law): when `keyBegin < keyEnd` does not hold, `assign` returns the
very state it was given, so the breakpoint map and the default value are
unchanged and `operator[]` is unchanged for every key. -/
theorem assign_invalid_range_noop (self : interval_map K V) (keyBegin keyEnd : K) (val : V)
    (h : ¬ keyBegin < keyEnd) :
    assign self keyBegin keyEnd val = Except.ok self := by
  simp [assign, h, pure, Except.pure]

/-- Witness of C4 on the invalid range `(4, 3)` of the test suite. -/
theorem assign_invalid_range_noop_witness :
    ¬ ((4 : Int) < 3) ∧
    assign (⟨'A', [(0, 'B'), (1, 'A')]⟩ : interval_map Int Char) 4 3 'B'
      = Except.ok ⟨'A', [(0, 'B'), (1, 'A')]⟩ :=
  ⟨by decide, assign_invalid_range_noop _ 4 3 'B' (by decide)⟩

/-- C5 (idempotence): on every reachable state `assign(keyBegin, keyEnd, val)`
returns a state, and running the same call on that state returns it unchanged
(same breakpoint map, same default value). -/
theorem assign_idempotent (s : interval_map K V) (hr : Reachable s) (keyBegin keyEnd : K)
    (val : V) :
    ∃ s1, assign s keyBegin keyEnd val = Except.ok s1 ∧
      assign s1 keyBegin keyEnd val = Except.ok s1 :=
  assign_twice_of_sorted s (reachable_sorted hr) keyBegin keyEnd val

/-- Witness of C5 on the state reached by `assign(0, 2, 'B')` from a fresh map. -/
theorem assign_idempotent_witness :
    Reachable (⟨'A', [(0, 'B'), (2, 'A')]⟩ : interval_map Int Char) ∧
    ∃ s1, assign (⟨'A', [(0, 'B'), (2, 'A')]⟩ : interval_map Int Char) 1 3 'C' = Except.ok s1 ∧
      assign s1 1 3 'C' = Except.ok s1 :=
  ⟨Reachable.step 0 2 'B' (Reachable.fresh 'A') (by decide),
    assign_idempotent _ (Reachable.step 0 2 'B' (Reachable.fresh 'A') (by decide)) 1 3 'C'⟩

/-- C6, evaluated on the code: on a fresh map with default `'A'` every key reads
`'A'`, yet `assign(10, 100, 'A')` stores the breakpoint `(10, 'A')`: the
breakpoint map is changed and `find(10)` is no longer `end()`. -/
theorem assign_ambient_counterexample :
    Reachable (new 'A' : interval_map Int Char) ∧
    (∀ k : Int, (new 'A' : interval_map Int Char).get k = 'A') ∧
    assign (new 'A' : interval_map Int Char) 10 100 'A' = Except.ok ⟨'A', [(10, 'A')]⟩ ∧
    (⟨'A', [(10, 'A')]⟩ : interval_map Int Char).find 10 = some 10 :=
  ⟨Reachable.fresh 'A', fun _ => rfl, by decide, by decide⟩

/-- C7 (assign never fails): on every breakpoint map with strictly increasing
keys, `assign` returns a state for all arguments; the `std::range_error` throw of
`insert_end_before` (and any undefined iterator operation) is never reached. -/
theorem assign_never_throws (self : interval_map K V) (hs : Sorted self.m_map)
    (keyBegin keyEnd : K) (val : V) :
    ∃ s1, assign self keyBegin keyEnd val = Except.ok s1 := by
  obtain ⟨m, hm, _⟩ := assign_sorted_ok self hs keyBegin keyEnd val
  exact ⟨_, hm⟩

/-- Witness of C7 on a sorted three-entry map. -/
theorem assign_never_throws_witness :
    Sorted [((0 : Int), 'B'), (5, 'C'), (7, 'A')] ∧
    ∃ s1, assign (⟨'A', [(0, 'B'), (5, 'C'), (7, 'A')]⟩ : interval_map Int Char) 3 9 'B'
      = Except.ok s1 :=
  ⟨by decide, assign_never_throws ⟨'A', [(0, 'B'), (5, 'C'), (7, 'A')]⟩ (by decide) 3 9 'B'⟩

/-- C8 (lookup): on a breakpoint map with strictly increasing keys, `operator[]`
returns the default value when no breakpoint key is at or below the key, and the
value of the entry with the greatest breakpoint key at or below the key
otherwise. The lookup is a function of the state and returns only a value. -/
theorem get_greatest_le (self : interval_map K V) (hs : Sorted self.m_map) (key : K) :
    ((∀ e ∈ self.m_map, ¬ e.1 ≤ key) → self.get key = self.m_valBegin) ∧
    (∀ e ∈ self.m_map, e.1 ≤ key → (∀ e1 ∈ self.m_map, e1.1 ≤ key → e1.1 ≤ e.1) →
      self.get key = e.2) := by
  obtain ⟨A, B, hm, hA, hB⟩ := exists_split_le self.m_map hs key
  obtain ⟨d, m⟩ := self
  simp only at hm hs ⊢
  subst hm
  rw [get_split d A B key hA hB hs]
  constructor
  · intro hnone
    have : A = [] := by
      cases A with
      | nil => rfl
      | cons a A1 => exact absurd (hA a (by simp)) (hnone a (by simp))
    simp [this, lastVal]
  · intro e he hle hmax
    have heA : e ∈ A := by
      rcases List.mem_append.mp he with h | h
      · exact h
      · exact absurd (hB e h) (not_lt.mpr hle)
    cases hl : A.getLast? with
    | none =>
      have : A = [] := List.getLast?_eq_none_iff.mp hl
      rw [this] at heA
      simp at heA
    | some q =>
      obtain ⟨A0, hA0⟩ := List.getLast?_eq_some_iff.mp hl
      have hq : q ∈ A := by rw [hA0]; simp
      have hqe : q.1 ≤ e.1 := hmax q (by simp [hq]) (hA q hq)
      have heq : e = q := by
        rw [hA0] at heA
        rcases List.mem_append.mp heA with h | h
        · have hsA : Sorted (A0 ++ [q]) := hA0 ▸ sorted_left hs
          exact absurd (sorted_append_lt hsA e h q (by simp)) (not_lt.mpr hqe)
        · simpa using h
      simp [lastVal, hl, heq]

/-- Witness of C8: the key `6` on `{0 ↦ 'B', 5 ↦ 'C', 7 ↦ 'A'}`. -/
theorem get_greatest_le_witness :
    Sorted [((0 : Int), 'B'), (5, 'C'), (7, 'A')] ∧
    (((∀ e ∈ [((0 : Int), 'B'), (5, 'C'), (7, 'A')], ¬ e.1 ≤ 6) →
        (⟨'A', [(0, 'B'), (5, 'C'), (7, 'A')]⟩ : interval_map Int Char).get 6 = 'A') ∧
      (∀ e ∈ [((0 : Int), 'B'), (5, 'C'), (7, 'A')], e.1 ≤ 6 →
        (∀ e1 ∈ [((0 : Int), 'B'), (5, 'C'), (7, 'A')], e1.1 ≤ 6 → e1.1 ≤ e.1) →
        (⟨'A', [(0, 'B'), (5, 'C'), (7, 'A')]⟩ : interval_map Int Char).get 6 = e.2)) :=
  ⟨by decide, get_greatest_le ⟨'A', [(0, 'B'), (5, 'C'), (7, 'A')]⟩ (by decide) 6⟩

/-- C9 (single assignment on a fresh map): for `keyBegin < keyEnd` and
`val ≠ d`, `assign` on `interval_map(d)` returns the state whose breakpoint map is
exactly `[(keyBegin, val), (keyEnd, d)]`; there `operator[]` is `val` on
`[keyBegin, keyEnd)`, `d` elsewhere, and `find` is `end()` for every key other
than `keyBegin` and `keyEnd`. -/
theorem assign_single_on_fresh (d : V) (keyBegin keyEnd : K) (val : V)
    (hlt : keyBegin < keyEnd) (hne : val ≠ d) :
    ∃ s, assign (new d) keyBegin keyEnd val = Except.ok s ∧
      s.m_valBegin = d ∧ s.m_map = [(keyBegin, val), (keyEnd, d)] ∧
      (∀ k, keyBegin ≤ k → k < keyEnd → s.get k = val) ∧
      (∀ k, (k < keyBegin ∨ keyEnd ≤ k) → s.get k = d) ∧
      (∀ k, k ≠ keyBegin → k ≠ keyEnd → s.find k = none) := by
  have hsorted : Sorted [(keyBegin, val), (keyEnd, d)] := by simp [Sorted, hlt]
  refine ⟨⟨d, [(keyBegin, val), (keyEnd, d)]⟩, assign_fresh d keyBegin keyEnd val hlt hne,
    rfl, rfl, ?_, ?_, ?_⟩
  · intro k h1 h2
    have := get_split d [(keyBegin, val)] [(keyEnd, d)] k (by simpa using h1)
      (by simpa using h2) hsorted
    simpa [lastVal] using this
  · intro k hk
    rcases hk with hk | hk
    · have := get_split d [] [(keyBegin, val), (keyEnd, d)] k (by simp)
        (by
          intro e he
          simp only [List.mem_cons, List.mem_singleton, List.not_mem_nil, or_false] at he
          rcases he with rfl | rfl
          · exact hk
          · exact lt_trans hk hlt) hsorted
      simpa [lastVal] using this
    · have := get_split d [(keyBegin, val), (keyEnd, d)] [] k
        (by
          intro e he
          simp only [List.mem_cons, List.mem_singleton, List.not_mem_nil, or_false] at he
          rcases he with rfl | rfl
          · exact le_trans (le_of_lt hlt) hk
          · exact hk) (by simp) (by simpa using hsorted)
      simpa [lastVal] using this
  · intro k hkb hke
    simp only [find, mapFind, lower_bound]
    by_cases h1 : keyBegin < k
    · by_cases h2 : keyEnd < k
      · simp [h1, h2]
      · have h3 : k < keyEnd := lt_of_le_of_ne (not_lt.mp h2) hke
        simp [h1, h2, h3]
    · have h3 : k < keyBegin := lt_of_le_of_ne (not_lt.mp h1) hkb
      simp [h1, h3]

/-- Witness of C9: the first scenario of `testSingleAssignment`. -/
theorem assign_single_on_fresh_witness :
    (3 : Int) < 5 ∧ 'B' ≠ 'A' ∧
    ∃ s, assign (new 'A' : interval_map Int Char) 3 5 'B' = Except.ok s ∧
      s.m_valBegin = 'A' ∧ s.m_map = [(3, 'B'), (5, 'A')] ∧
      (∀ k, 3 ≤ k → k < 5 → s.get k = 'B') ∧
      (∀ k, (k < 3 ∨ 5 ≤ k) → s.get k = 'A') ∧
      (∀ k, k ≠ 3 → k ≠ 5 → s.find k = none) :=
  ⟨by decide, by decide, assign_single_on_fresh 'A' 3 5 'B' (by decide) (by decide)⟩

/-- C10 (collapse law): for `val ≠ d` and keys `a < b < c < e < f < g`, the
calls `assign(a, b, val)`, `assign(c, e, val)`, `assign(f, g, val)` on
`interval_map(d)` followed by `assign(lo, hi, val)` with `lo ≤ a` and `g ≤ hi`
all return, and the final breakpoint map is exactly `[(lo, val), (hi, d)]`. -/
theorem assign_collapse (d val : V) (a b c e f g lo hi : K) (hne : val ≠ d)
    (hab : a < b) (hbc : b < c) (hce : c < e) (hef : e < f) (hfg : f < g)
    (hlo : lo ≤ a) (hhi : g ≤ hi) :
    (assign (new d) a b val >>= fun s1 =>
      assign s1 c e val >>= fun s2 =>
      assign s2 f g val >>= fun s3 =>
      assign s3 lo hi val) = Except.ok ⟨d, [(lo, val), (hi, d)]⟩ := by
  have hac := lt_trans hab hbc
  have hae := lt_trans hac hce
  have haf := lt_trans hae hef
  have hbe := lt_trans hbc hce
  have hbf := lt_trans hbe hef
  have hcf := lt_trans hce hef
  have h1 := assign_fresh d a b val hab hne
  have h2 := assign_right d [(a, val), (b, d)] (b, d) c e val hce hne
    (by
      intro x hx
      simp only [List.mem_cons, List.mem_singleton, List.not_mem_nil, or_false] at hx
      rcases hx with rfl | rfl
      · exact hac
      · exact hbc) rfl rfl (by simp [Sorted, hab])
  have h3 := assign_right d [(a, val), (b, d), (c, val), (e, d)] (e, d) f g val hfg hne
    (by
      intro x hx
      simp only [List.mem_cons, List.mem_singleton, List.not_mem_nil, or_false] at hx
      rcases hx with rfl | rfl | rfl | rfl
      · exact haf
      · exact hbf
      · exact hcf
      · exact hef) rfl rfl (by simp [Sorted, hab, hac, hae, hbc, hbe, hce])
  have h4 := assign_bridge d val a b c e f g lo hi hne hab hbc hce hef hfg hlo hhi
  simp only [List.cons_append, List.nil_append] at h2 h3
  simp only [h1, h2, h3, h4, bind, Except.bind]

/-- Witness of C10: the scenario of `testIntervalCollapseAssignment`. -/
theorem assign_collapse_witness :
    'B' ≠ 'A' ∧ (1 : Int) < 2 ∧ (2 : Int) < 3 ∧ (3 : Int) < 4 ∧ (4 : Int) < 5 ∧ (5 : Int) < 6 ∧
    (1 : Int) ≤ 1 ∧ (6 : Int) ≤ 6 ∧
    (assign (new 'A' : interval_map Int Char) 1 2 'B' >>= fun s1 =>
      assign s1 3 4 'B' >>= fun s2 =>
      assign s2 5 6 'B' >>= fun s3 =>
      assign s3 1 6 'B') = Except.ok ⟨'A', [(1, 'B'), (6, 'A')]⟩ :=
  ⟨by decide, by decide, by decide, by decide, by decide, by decide, by decide, by decide,
    assign_collapse 'A' 'B' 1 2 3 4 5 6 1 6 (by decide) (by decide) (by decide) (by decide)
      (by decide) (by decide) (by decide) (by decide)⟩

end Claims3

end interval_map

/-! ## Assigning a value that is stored nowhere, and the lower frame -/

namespace IntervalMap

section FreshValue

variable {K V : Type}

theorem lastVal_nil (d : V) : lastVal d ([] : List (K × V)) = d := rfl

theorem lastVal_append (d : V) (A B : List (K × V)) :
    lastVal d (A ++ B) = lastVal (lastVal d A) B := by
  unfold lastVal
  rw [List.getLast?_append]
  cases B.getLast? <;> simp

theorem lastVal_of_ne_nil (d d1 : V) {A : List (K × V)} (h : A ≠ []) :
    lastVal d A = lastVal d1 A := by
  unfold lastVal
  cases hl : A.getLast? with
  | none => exact absurd (List.getLast?_eq_none_iff.mp hl) h
  | some p => rfl

theorem lastVal_cons (d : V) (a : K × V) (A : List (K × V)) :
    lastVal d (a :: A) = lastVal a.2 A := by
  have := lastVal_append d [a] A
  simpa [lastVal] using this

/-- The value in force after a list is the default or a stored value. -/
theorem lastVal_ne (d val : V) (A : List (K × V)) (hd : d ≠ val) (hA : ∀ e ∈ A, e.2 ≠ val) :
    lastVal d A ≠ val := by
  unfold lastVal
  cases hl : A.getLast? with
  | none => exact hd
  | some p =>
    obtain ⟨A0, hA0⟩ := List.getLast?_eq_some_iff.mp hl
    exact hA p (by rw [hA0]; simp)

variable [LinearOrder K] [DecidableEq V]

/-- The list `assign` leaves when `val` is neither the default value nor stored:
`(kb, val)` follows `L`, then the node at `ke` that restores the value in force
there before the call, then `R`. -/
theorem assignRef_unused_value (d : V) (L M R : List (K × V)) (kb ke : K) (val : V)
    (hd : d ≠ val) (hL : ∀ e ∈ L, e.2 ≠ val) (hM : ∀ e ∈ M, e.2 ≠ val)
    (hR : ∀ e ∈ R, e.2 ≠ val) :
    assignRef d L M R kb ke val =
      L ++ (kb, val) ::
        (if mapBegin R = some ke then R else (ke, lastVal d (L ++ M)) :: R) := by
  have hmerge : ¬ ((match L.getLast? with
      | some p => decide (p.2 = val)
      | none => false) = true) := by
    cases hl : L.getLast? with
    | none => simp
    | some p =>
      obtain ⟨L0, hL0⟩ := List.getLast?_eq_some_iff.mp hl
      have := hL p (by rw [hL0]; simp)
      simpa using this
  have hRhead : ∀ (a : K × V) (R1 : List (K × V)), R = a :: R1 → ¬ (a.2 = val) :=
    fun a R1 h => hR a (by rw [h]; simp)
  have hendR : ∀ (Ms : List (K × V)) (vbb : V), mapBegin R = some ke →
      endPhase Ms R ke val vbb = R := by
    intro Ms vbb hrep
    cases R with
    | nil => simp at hrep
    | cons a R1 => simp [endPhase, hrep, hRhead a R1 rfl]
  have h1 : (beginPhase d L M kb val).1 = L ++ [(kb, val)] := by
    unfold beginPhase
    rw [if_neg hmerge]
    cases M with
    | nil => rfl
    | cons a M1 => by_cases hak : a.1 = kb <;> simp [hak]
  simp only [assignRef]
  by_cases hrep : mapBegin R = some ke
  · rw [hendR _ _ hrep, if_pos hrep, h1]
    simp
  · rw [if_neg hrep]
    cases M with
    | nil =>
      have hb : beginPhase d L ([] : List (K × V)) kb val
          = (L ++ [(kb, val)], [], lastVal d L) := by
        simp [beginPhase, hmerge]
      have hv : lastVal d L ≠ val := lastVal_ne d val L hd hL
      simp [hb, endPhase, hrep, lastVal_nil, hv]
    | cons a M1 =>
      have ha : a.2 ≠ val := hM a (by simp)
      have hM1 : ∀ e ∈ M1, e.2 ≠ val := fun e he => hM e (by simp [he])
      by_cases hak : a.1 = kb
      · have hb : beginPhase d L (a :: M1) kb val = (L ++ [(kb, val)], M1, a.2) := by
          simp [beginPhase, hmerge, hak]
        have hx : lastVal d (L ++ a :: M1) = lastVal a.2 M1 := by
          rw [lastVal_append, lastVal_cons]
        by_cases hM1nil : M1 = []
        · subst hM1nil
          simp [hb, endPhase, hrep, lastVal_nil, ha, hx]
        · have hv : lastVal val M1 ≠ val := by
            rw [lastVal_of_ne_nil val a.2 hM1nil]
            exact lastVal_ne a.2 val M1 ha hM1
          have hv2 : lastVal val M1 = lastVal a.2 M1 := lastVal_of_ne_nil val a.2 hM1nil
          have hv3 : lastVal a.2 M1 ≠ val := hv2 ▸ hv
          simp [hb, endPhase, hrep, hx, hv2, hv3]
      · have hb : beginPhase d L (a :: M1) kb val
            = (L ++ [(kb, val)], a :: M1, lastVal d L) := by
          simp [beginPhase, hmerge, hak]
        have hx : lastVal d (L ++ a :: M1) = lastVal val (a :: M1) := by
          rw [lastVal_append]
          exact lastVal_of_ne_nil _ _ (by simp)
        have hv : lastVal val (a :: M1) ≠ val := by
          rw [← hx]
          exact lastVal_ne d val _ hd (fun e he => by
            rcases List.mem_append.mp he with h | h
            · exact hL e h
            · exact hM e h)
        simp [hb, endPhase, hrep, hv, hx]

end FreshValue

end IntervalMap

namespace IntervalMap

section LowerFrame

variable {K V : Type} [LinearOrder K] [DecidableEq V]

/-- The end phase only yields nodes of `Ms`, nodes of `R`, or a node at `ke`:
all of its keys are at or above `kb` when those of `Ms` are. -/
theorem assignRef_lower (d : V) (L M R : List (K × V)) (kb ke : K) (val : V) (hlt : kb < ke)
    (hM : ∀ e ∈ M, kb ≤ e.1 ∧ e.1 < ke) (hR : ∀ e ∈ R, ke ≤ e.1) (hsR : Sorted R) :
    ∃ Z, assignRef d L M R kb ke val = L ++ Z ∧ ∀ e ∈ Z, kb ≤ e.1 := by
  obtain ⟨Ms2, R2, hE, hsub, hR2, _⟩ :=
    endPhase_resplit (beginPhase d L M kb val).2.1 R ke val (beginPhase d L M kb val).2.2 hR hsR
  have hZ : ∀ e ∈ Ms2 ++ R2, kb ≤ e.1 := fun e he => by
    rcases List.mem_append.mp he with h | h
    · exact (hM e (beginPhase_mem d L M kb val e (hsub e h))).1
    · exact le_trans (le_of_lt hlt) (hR2 e h)
  rcases beginPhase_cases d L M kb val with ⟨h1, _⟩ | ⟨h1, _⟩
  · exact ⟨Ms2 ++ R2, by simp only [assignRef, h1, hE], hZ⟩
  · refine ⟨(kb, val) :: (Ms2 ++ R2), by simp [assignRef, h1, hE], ?_⟩
    intro e he
    rcases List.mem_cons.mp he with rfl | h
    · exact le_refl _
    · exact hZ e h

/-- Two sorted maps with the same nodes below `kb` read the same below `kb`. -/
theorem get_lower_frame (d : V) (L Z1 Z2 : List (K × V)) (kb k : K) (hk : k < kb)
    (hL : ∀ e ∈ L, e.1 < kb) (hZ1 : ∀ e ∈ Z1, kb ≤ e.1) (hZ2 : ∀ e ∈ Z2, kb ≤ e.1)
    (hs1 : Sorted (L ++ Z1)) (hs2 : Sorted (L ++ Z2)) :
    interval_map.get ⟨d, L ++ Z1⟩ k = interval_map.get ⟨d, L ++ Z2⟩ k := by
  obtain ⟨A, B, hAB, hA, hB⟩ := exists_split_le L (sorted_left hs1) k
  subst hAB
  have h1 := get_split d A (B ++ Z1) k hA (fun e he => by
    rcases List.mem_append.mp he with h | h
    · exact hB e h
    · exact lt_of_lt_of_le hk (hZ1 e h)) (by simpa using hs1)
  have h2 := get_split d A (B ++ Z2) k hA (fun e he => by
    rcases List.mem_append.mp he with h | h
    · exact hB e h
    · exact lt_of_lt_of_le hk (hZ2 e h)) (by simpa using hs2)
  simp only [List.append_assoc]
  rw [h1, h2]

end LowerFrame

end IntervalMap

namespace IntervalMap

section UnusedValue

variable {K V : Type} [LinearOrder K] [DecidableEq V]

/-- Lookup in the map left by assigning an unused value: `val` inside the range,
the former value at every key at or above `ke`. -/
theorem get_assignRef_unused (d : V) (L M R : List (K × V)) (kb ke : K) (val : V)
    (hlt : kb < ke) (hL : ∀ e ∈ L, e.1 < kb) (hM : ∀ e ∈ M, kb ≤ e.1 ∧ e.1 < ke)
    (hR : ∀ e ∈ R, ke ≤ e.1) (hs : Sorted (L ++ M ++ R))
    (hd : d ≠ val) (hvL : ∀ e ∈ L, e.2 ≠ val) (hvM : ∀ e ∈ M, e.2 ≠ val)
    (hvR : ∀ e ∈ R, e.2 ≠ val) :
    (∀ k, kb ≤ k → k < ke →
      interval_map.get ⟨d, assignRef d L M R kb ke val⟩ k = val) ∧
    (∀ k, ke ≤ k →
      interval_map.get ⟨d, assignRef d L M R kb ke val⟩ k
        = interval_map.get ⟨d, L ++ M ++ R⟩ k) := by
  have hsorted := assignRef_sorted d L M R kb ke val hlt hL hM hR hs
  have hr := assignRef_unused_value d L M R kb ke val hd hvL hvM hvR
  rw [hr] at hsorted ⊢
  have hsR : Sorted R := sorted_right hs
  have hPval : lastVal d (L ++ [(kb, val)]) = val := by
    rw [lastVal_append]; rfl
  constructor
  · intro k h1 h2
    have hT : ∀ e ∈ (if mapBegin R = some ke then R else (ke, lastVal d (L ++ M)) :: R),
        k < e.1 := by
      intro e he
      split at he
      · exact lt_of_lt_of_le h2 (hR e he)
      · rcases List.mem_cons.mp he with rfl | h
        · exact h2
        · exact lt_of_lt_of_le h2 (hR e h)
    have := get_split d (L ++ [(kb, val)]) _ k (fun e he => by
      rcases List.mem_append.mp he with h | h
      · exact le_trans (le_of_lt (hL e h)) h1
      · rw [List.mem_singleton.mp h]; exact h1) hT (by simpa using hsorted)
    rw [hPval] at this
    simpa using this
  · intro k hk
    obtain ⟨RA, RB, hRAB, hRA, hRB⟩ := exists_split_le R hsR k
    have hold : interval_map.get ⟨d, L ++ M ++ R⟩ k = lastVal (lastVal d (L ++ M)) RA := by
      have := get_split d (L ++ M ++ RA) RB k (fun e he => by
        rcases List.mem_append.mp he with h | h
        · rcases List.mem_append.mp h with h | h
          · exact le_of_lt (lt_of_lt_of_le (lt_trans (hL e h) hlt) hk)
          · exact le_of_lt (lt_of_lt_of_le (hM e h).2 hk)
        · exact hRA e h) hRB (by rw [hRAB] at hs; simpa using hs)
      rw [hRAB]
      simp only [List.append_assoc] at this ⊢
      rw [this, ← List.append_assoc, lastVal_append]
    rw [hold]
    by_cases hrep : mapBegin R = some ke
    · rw [if_pos hrep] at hsorted ⊢
      have hRAne : RA ≠ [] := by
        intro h
        obtain ⟨e, he, hek⟩ := mapBegin_mem hrep
        rw [hRAB, h] at he
        have := hRB e (by simpa using he)
        rw [hek] at this
        exact absurd this (not_lt.mpr hk)
      have := get_split d (L ++ [(kb, val)] ++ RA) RB k (fun e he => by
        rcases List.mem_append.mp he with h | h
        · rcases List.mem_append.mp h with h | h
          · exact le_of_lt (lt_of_lt_of_le (lt_trans (hL e h) hlt) hk)
          · rw [List.mem_singleton.mp h]; exact le_trans (le_of_lt hlt) hk
        · exact hRA e h) hRB (by rw [hRAB] at hsorted; simpa using hsorted)
      rw [hRAB]
      simp only [List.append_assoc, List.singleton_append, List.cons_append,
        List.nil_append] at this ⊢
      rw [this]
      have h2 : lastVal d (L ++ (kb, val) :: RA) = lastVal val RA := by
        rw [lastVal_append, lastVal_cons]
      rw [h2]
      exact lastVal_of_ne_nil _ _ hRAne
    · rw [if_neg hrep] at hsorted ⊢
      have := get_split d (L ++ [(kb, val), (ke, lastVal d (L ++ M))] ++ RA) RB k
        (fun e he => by
          rcases List.mem_append.mp he with h | h
          · rcases List.mem_append.mp h with h | h
            · exact le_of_lt (lt_of_lt_of_le (lt_trans (hL e h) hlt) hk)
            · simp only [List.mem_cons, List.mem_singleton, List.not_mem_nil, or_false] at h
              rcases h with rfl | rfl
              · exact le_trans (le_of_lt hlt) hk
              · exact hk
          · exact hRA e h) hRB (by rw [hRAB] at hsorted; simpa using hsorted)
      rw [hRAB]
      simp only [List.append_assoc, List.cons_append, List.nil_append] at this ⊢
      rw [this]
      rw [lastVal_append, lastVal_cons, lastVal_cons]

end UnusedValue

end IntervalMap

namespace interval_map

open IntervalMap

section CanonicalLemmas

variable {K V : Type}

/-- Canonical form of a concatenation: the first part is canonical and the
second is canonical read after the value the first part ends with. -/
theorem canonical_append (d : V) (A B : List (K × V)) :
    Canonical ⟨d, A ++ B⟩ ↔ Canonical ⟨d, A⟩ ∧ Canonical ⟨lastVal d A, B⟩ := by
  induction A generalizing d with
  | nil => simp [Canonical, lastVal]
  | cons a A ih =>
    have := ih a.2
    simp only [Canonical, List.cons_append, List.map_cons, List.chain_cons, lastVal_cons]
      at this ⊢
    rw [this]
    exact and_assoc.symm

variable [LinearOrder K] [DecidableEq V]

/-- Assigning an unused value to a canonical map leaves a canonical map. -/
theorem canonical_assignRef_unused (d : V) (L M R : List (K × V)) (kb ke : K) (val : V)
    (hc : Canonical ⟨d, L ++ M ++ R⟩)
    (hd : d ≠ val) (hvL : ∀ e ∈ L, e.2 ≠ val) (hvM : ∀ e ∈ M, e.2 ≠ val)
    (hvR : ∀ e ∈ R, e.2 ≠ val) :
    Canonical ⟨d, assignRef d L M R kb ke val⟩ := by
  rw [assignRef_unused_value d L M R kb ke val hd hvL hvM hvR]
  rw [canonical_append] at hc
  obtain ⟨hLM, hRc⟩ := hc
  rw [canonical_append] at hLM
  have hx : lastVal d (L ++ M) ≠ val := lastVal_ne d val _ hd (fun e he => by
    rcases List.mem_append.mp he with h | h
    · exact hvL e h
    · exact hvM e h)
  rw [canonical_append]
  refine ⟨hLM.1, ?_⟩
  have hLv : lastVal d L ≠ val := lastVal_ne d val L hd hvL
  by_cases hrep : mapBegin R = some ke
  · rw [if_pos hrep]
    cases R with
    | nil => simp at hrep
    | cons a R1 =>
      have ha : a.2 ≠ val := hvR a (by simp)
      simp only [Canonical, List.map_cons, List.chain_cons] at hRc ⊢
      exact ⟨hLv, Ne.symm ha, hRc.2⟩
  · rw [if_neg hrep]
    simp only [Canonical, List.map_cons, List.chain_cons] at hRc ⊢
    exact ⟨hLv, Ne.symm hx, hRc⟩

end CanonicalLemmas

end interval_map

namespace interval_map

open IntervalMap

section Claims4

variable {K V : Type} [LinearOrder K] [DecidableEq V]

/-- A breakpoint stored at `ke` in a split map is the first node of `R`. -/
theorem mem_split_at_end (L M R : List (K × V)) (ke : K) (w : V)
    (hLM : ∀ e ∈ L ++ M, e.1 < ke) (hR : ∀ e ∈ R, ke ≤ e.1) (hsR : Sorted R)
    (hmem : (ke, w) ∈ L ++ M ++ R) : ∃ R1, R = (ke, w) :: R1 := by
  rcases List.mem_append.mp hmem with h | h
  · exact absurd (hLM _ h) (lt_irrefl _)
  · cases R with
    | nil => simp at h
    | cons a R1 =>
      rcases List.mem_cons.mp h with h1 | h1
      · exact ⟨R1, by rw [h1]⟩
      · have h2 : a.1 < ke := sorted_cons_lt hsR _ h1
        exact absurd h2 (not_lt.mpr (hR a (by simp)))

/-- C11, evaluated on the code: on a fresh map with default `'A'` the calls
`assign(0, 1, 'B')`, `assign(0, 1, 'C')`, `assign(0, 1, 'A')` all return and leave the
breakpoint map `{0 ↦ 'A'}`, which is not the empty map of a fresh `interval_map('A')`. -/
theorem assign_reassignment_counterexample :
    (assign (new 'A' : interval_map Int Char) 0 1 'B' >>= fun s1 =>
      assign s1 0 1 'C' >>= fun s2 =>
      assign s2 0 1 'A') = Except.ok ⟨'A', [(0, 'A')]⟩ ∧
    (⟨'A', [(0, 'A')]⟩ : interval_map Int Char) ≠ new 'A' :=
  ⟨by decide, by decide⟩

/-- C12 (overlapping assignment): for keys `a < b < c < e` and pairwise distinct
`d`, `v1`, `v2`, on `interval_map(d)` the calls `assign(a, c, v1)`, `assign(b, e, v2)`
return and leave exactly `[(a, v1), (b, v2), (e, d)]`, and the calls
`assign(b, e, v1)`, `assign(a, c, v2)` return and leave exactly
`[(a, v2), (c, v1), (e, d)]`. -/
theorem assign_overlap (d v1 v2 : V) (a b c e : K) (hab : a < b) (hbc : b < c) (hce : c < e)
    (h1 : v1 ≠ d) (h2 : v2 ≠ d) (h12 : v1 ≠ v2) :
    (assign (new d) a c v1 >>= fun s => assign s b e v2)
      = Except.ok ⟨d, [(a, v1), (b, v2), (e, d)]⟩ ∧
    (assign (new d) b e v1 >>= fun s => assign s a c v2)
      = Except.ok ⟨d, [(a, v2), (c, v1), (e, d)]⟩ := by
  have hac := lt_trans hab hbc
  have hbe := lt_trans hbc hce
  have hd2 : ¬ (d = v2) := fun h => h2 h.symm
  constructor
  · have hs1 := assign_fresh d a c v1 hac h1
    have hs2 := assign_split d [(a, v1)] [(c, d)] [] b e v2 hbe
      (by simpa using hab) (by simpa using ⟨le_of_lt hbc, hce⟩) (by simp)
      (by simp [Sorted, hac])
    have hr : assignRef d [(a, v1)] [(c, d)] [] b e v2 = [(a, v1), (b, v2), (e, d)] := by
      have hcb : ¬ (c = b) := fun h => absurd hbc (by simp [h])
      simp [assignRef, beginPhase, endPhase, lastVal, h12, hcb, hd2]
    rw [hr] at hs2
    simp only [List.cons_append, List.nil_append, List.append_nil] at hs2
    simp only [hs1, hs2, bind, Except.bind]
  · have hs1 := assign_fresh d b e v1 hbe h1
    have hs2 := assign_split d [] [(b, v1)] [(e, d)] a c v2 hac
      (by simp) (by simpa using ⟨le_of_lt hab, hbc⟩) (by simpa using le_of_lt hce)
      (by simp [Sorted, hbe])
    have hr : assignRef d [] [(b, v1)] [(e, d)] a c v2 = [(a, v2), (c, v1), (e, d)] := by
      have hba : ¬ (b = a) := fun h => absurd hab (by simp [h])
      have hec : ¬ (e = c) := fun h => absurd hce (by simp [h])
      simp [assignRef, beginPhase, endPhase, lastVal, h12, hba, hec]
    rw [hr] at hs2
    simp only [List.cons_append, List.nil_append, List.append_nil] at hs2
    simp only [hs1, hs2, bind, Except.bind]

/-- Witness of C12: the first two scenarios of `testOverlapAssignment`. -/
theorem assign_overlap_witness :
    (0 : Int) < 1 ∧ (1 : Int) < 2 ∧ (2 : Int) < 3 ∧ 'B' ≠ 'A' ∧ 'C' ≠ 'A' ∧ 'B' ≠ 'C' ∧
    ((assign (new 'A' : interval_map Int Char) 0 2 'B' >>= fun s => assign s 1 3 'C')
      = Except.ok ⟨'A', [(0, 'B'), (1, 'C'), (3, 'A')]⟩ ∧
    (assign (new 'A' : interval_map Int Char) 1 3 'B' >>= fun s => assign s 0 2 'C')
      = Except.ok ⟨'A', [(0, 'C'), (2, 'B'), (3, 'A')]⟩) :=
  ⟨by decide, by decide, by decide, by decide, by decide, by decide,
    assign_overlap 'A' 'B' 'C' 0 1 2 3 (by decide) (by decide) (by decide) (by decide)
      (by decide) (by decide)⟩

/-- C13 (sorted-keys invariant): in every state reachable from a freshly
constructed map by `assign` calls the stored breakpoint keys are strictly
increasing, so no key is stored twice. -/
theorem reachable_keys_strictly_increasing (s : interval_map K V) (hr : Reachable s) :
    Sorted s.m_map ∧ (s.m_map.map Prod.fst).Nodup := by
  have hs := reachable_sorted hr
  refine ⟨hs, ?_⟩
  unfold List.Nodup
  rw [List.pairwise_map]
  exact List.Pairwise.imp (fun h => ne_of_lt h) hs

/-- Witness of C13 on the state reached by `assign(0, 2, 'B')`, `assign(1, 3, 'C')`. -/
theorem reachable_keys_strictly_increasing_witness :
    Reachable (⟨'A', [(0, 'B'), (1, 'C'), (3, 'A')]⟩ : interval_map Int Char) ∧
    Sorted [((0 : Int), 'B'), (1, 'C'), (3, 'A')] ∧
    ([((0 : Int), 'B'), (1, 'C'), (3, 'A')].map Prod.fst).Nodup :=
  ⟨Reachable.step 1 3 'C' (Reachable.step 0 2 'B' (Reachable.fresh 'A') (by decide) :
      Reachable (⟨'A', [(0, 'B'), (2, 'A')]⟩ : interval_map Int Char)) (by decide),
    reachable_keys_strictly_increasing ⟨'A', [(0, 'B'), (1, 'C'), (3, 'A')]⟩
      (Reachable.step 1 3 'C' (Reachable.step 0 2 'B' (Reachable.fresh 'A') (by decide) :
      Reachable (⟨'A', [(0, 'B'), (2, 'A')]⟩ : interval_map Int Char)) (by decide))⟩

/-- C14 (fresh map is totally default): a freshly constructed `interval_map(d)`
has an empty breakpoint map and `operator[]` returns `d` for every key. -/
theorem fresh_is_default (d : V) (k : K) :
    (new d : interval_map K V).m_map = [] ∧ (new d : interval_map K V).get k = d :=
  ⟨rfl, rfl⟩

/-- C15, evaluated on the code: the state `{0 ↦ 'B', 5 ↦ 'C', 7 ↦ 'B', 10 ↦ 'A'}`
with default `'A'` is reachable (`assign(0, 10, 'B')`, `assign(5, 7, 'C')`), and
`assign(3, 9, 'B')` returns it unchanged: the breakpoints at keys `5` and `7`,
strictly between `3` and `9`, are still stored. -/
theorem assign_interior_counterexample :
    Reachable (⟨'A', [(0, 'B'), (5, 'C'), (7, 'B'), (10, 'A')]⟩ : interval_map Int Char) ∧
    assign (⟨'A', [(0, 'B'), (5, 'C'), (7, 'B'), (10, 'A')]⟩ : interval_map Int Char) 3 9 'B'
      = Except.ok ⟨'A', [(0, 'B'), (5, 'C'), (7, 'B'), (10, 'A')]⟩ ∧
    (((5 : Int), 'C') ∈ [((0 : Int), 'B'), (5, 'C'), (7, 'B'), (10, 'A')] ∧
      (3 : Int) < 5 ∧ (5 : Int) < 9) :=
  ⟨Reachable.step 5 7 'C' (Reachable.step 0 10 'B' (Reachable.fresh 'A') (by decide) :
      Reachable (⟨'A', [(0, 'B'), (10, 'A')]⟩ : interval_map Int Char)) (by decide),
    by decide, by decide⟩

/-- C16 (end-boundary absorption): on a map with strictly increasing keys that
stores the breakpoint `(keyEnd, w)`, `assign(keyBegin, keyEnd, val)` with
`keyBegin < keyEnd` returns a state in which no breakpoint is stored at `keyEnd`
when `w = val`, and in which `(keyEnd, w)` is still stored when `w ≠ val`. -/
theorem assign_end_boundary (self : interval_map K V) (hs : Sorted self.m_map)
    (keyBegin keyEnd : K) (val w : V) (hlt : keyBegin < keyEnd)
    (hmem : (keyEnd, w) ∈ self.m_map) :
    ∃ s1, assign self keyBegin keyEnd val = Except.ok s1 ∧ Sorted s1.m_map ∧
      (w = val → ∀ e ∈ s1.m_map, e.1 ≠ keyEnd) ∧
      (w ≠ val → (keyEnd, w) ∈ s1.m_map) := by
  obtain ⟨L, M, R, hm, hL, hM, hR⟩ := exists_split self.m_map hs keyBegin keyEnd
  obtain ⟨d, m⟩ := self
  simp only at hm hs hmem ⊢
  subst hm
  have hLM : ∀ e ∈ L ++ M, e.1 < keyEnd := fun e he => by
    rcases List.mem_append.mp he with h | h
    · exact lt_trans (hL e h) hlt
    · exact (hM e h).2
  obtain ⟨R1, hR1⟩ := mem_split_at_end L M R keyEnd w hLM hR (sorted_right hs) hmem
  have hgt : ∀ e ∈ R1, keyEnd < e.1 := fun e he => by
    have := sorted_cons_lt (hR1 ▸ sorted_right hs) e he
    exact this
  obtain ⟨_, hPM, _⟩ := beginPhase_facts d L M R keyBegin keyEnd val hlt hL hM hR hs
  refine ⟨_, assign_split d L M R keyBegin keyEnd val hlt hL hM hR hs,
    assignRef_sorted d L M R keyBegin keyEnd val hlt hL hM hR hs, ?_, ?_⟩
  · intro hw e he
    have hend : endPhase (beginPhase d L M keyBegin val).2.1 R keyEnd val
        (beginPhase d L M keyBegin val).2.2 = R1 := by
      simp [endPhase, hR1, hw]
    simp only [assignRef, hend] at he
    rcases List.mem_append.mp he with h | h
    · exact ne_of_lt (hPM e (by simp [h]))
    · exact ne_of_gt (hgt e h)
  · intro hw
    have hend : endPhase (beginPhase d L M keyBegin val).2.1 R keyEnd val
        (beginPhase d L M keyBegin val).2.2 = R := by
      simp [endPhase, hR1, hw]
    simp only [assignRef, hend]
    rw [hR1]
    simp

/-- Witness of C16 on `{0 ↦ 'B', 2 ↦ 'C', 4 ↦ 'A'}`, range `[1, 2)`, value `'C'`. -/
theorem assign_end_boundary_witness :
    Sorted [((0 : Int), 'B'), (2, 'C'), (4, 'A')] ∧ (1 : Int) < 2 ∧
    ((2 : Int), 'C') ∈ [((0 : Int), 'B'), (2, 'C'), (4, 'A')] ∧
    ∃ s1, assign (⟨'A', [(0, 'B'), (2, 'C'), (4, 'A')]⟩ : interval_map Int Char) 1 2 'C'
        = Except.ok s1 ∧ Sorted s1.m_map ∧
      ('C' = 'C' → ∀ e ∈ s1.m_map, e.1 ≠ 2) ∧
      ('C' ≠ 'C' → ((2 : Int), 'C') ∈ s1.m_map) :=
  ⟨by decide, by decide, by decide,
    assign_end_boundary ⟨'A', [(0, 'B'), (2, 'C'), (4, 'A')]⟩ (by decide) 1 2 'C' 'C'
      (by decide) (by decide)⟩

end Claims4

end interval_map

namespace interval_map

open IntervalMap

section Claims5

variable {K V : Type} [LinearOrder K] [DecidableEq V]

/-- C17 (assigning an unused value is exact): on a map with strictly increasing
keys, for `keyBegin < keyEnd` and a `val` that differs from the default value and
from every stored value, `assign` returns a state where `operator[]` is `val` on
`[keyBegin, keyEnd)` and equals its value before the call at every other key. -/
theorem assign_unused_value_exact (self : interval_map K V) (hs : Sorted self.m_map)
    (keyBegin keyEnd : K) (val : V) (hlt : keyBegin < keyEnd)
    (hd : val ≠ self.m_valBegin) (hv : ∀ e ∈ self.m_map, e.2 ≠ val) :
    ∃ s1, assign self keyBegin keyEnd val = Except.ok s1 ∧
      (∀ k, keyBegin ≤ k → k < keyEnd → s1.get k = val) ∧
      (∀ k, (k < keyBegin ∨ keyEnd ≤ k) → s1.get k = self.get k) := by
  obtain ⟨L, M, R, hm, hL, hM, hR⟩ := exists_split self.m_map hs keyBegin keyEnd
  obtain ⟨d, m⟩ := self
  simp only at hm hs hv hd ⊢
  subst hm
  have hvL : ∀ e ∈ L, e.2 ≠ val := fun e he => hv e (by simp [he])
  have hvM : ∀ e ∈ M, e.2 ≠ val := fun e he => hv e (by simp [he])
  have hvR : ∀ e ∈ R, e.2 ≠ val := fun e he => hv e (by simp [he])
  obtain ⟨hin, hup⟩ := get_assignRef_unused d L M R keyBegin keyEnd val hlt hL hM hR hs
    (Ne.symm hd) hvL hvM hvR
  refine ⟨_, assign_split d L M R keyBegin keyEnd val hlt hL hM hR hs, hin, ?_⟩
  intro k hk
  rcases hk with hk | hk
  · obtain ⟨Z, hZ, hZk⟩ := assignRef_lower d L M R keyBegin keyEnd val hlt hM hR
      (sorted_right hs)
    have hsorted := assignRef_sorted d L M R keyBegin keyEnd val hlt hL hM hR hs
    rw [hZ] at hsorted ⊢
    have := get_lower_frame d L Z (M ++ R) keyBegin k hk hL hZk (fun e he => by
      rcases List.mem_append.mp he with h | h
      · exact (hM e h).1
      · exact le_trans (le_of_lt hlt) (hR e h)) hsorted (by simpa using hs)
    simpa using this
  · exact hup k hk

/-- Witness of C17 on `{0 ↦ 'B', 5 ↦ 'C', 7 ↦ 'A'}`, range `[3, 9)`, value `'D'`. -/
theorem assign_unused_value_exact_witness :
    Sorted [((0 : Int), 'B'), (5, 'C'), (7, 'A')] ∧ (3 : Int) < 9 ∧ 'D' ≠ 'A' ∧
    (∀ e ∈ [((0 : Int), 'B'), (5, 'C'), (7, 'A')], e.2 ≠ 'D') ∧
    ∃ s1, assign (⟨'A', [(0, 'B'), (5, 'C'), (7, 'A')]⟩ : interval_map Int Char) 3 9 'D'
        = Except.ok s1 ∧
      (∀ k, 3 ≤ k → k < 9 → s1.get k = 'D') ∧
      (∀ k, (k < 3 ∨ 9 ≤ k) →
        s1.get k = (⟨'A', [(0, 'B'), (5, 'C'), (7, 'A')]⟩ : interval_map Int Char).get k) :=
  ⟨by decide, by decide, by decide, by decide,
    assign_unused_value_exact ⟨'A', [(0, 'B'), (5, 'C'), (7, 'A')]⟩ (by decide) 3 9 'D'
      (by decide) (by decide) (by decide)⟩

/-- C18 (assigning an unused value preserves canonical form): on a canonical map
with strictly increasing keys, for `keyBegin < keyEnd` and a `val` that differs
from the default value and from every stored value, `assign` returns a state
that is again canonical with strictly increasing keys. -/
theorem assign_unused_value_canonical (self : interval_map K V) (hs : Sorted self.m_map)
    (hc : Canonical self) (keyBegin keyEnd : K) (val : V) (hlt : keyBegin < keyEnd)
    (hd : val ≠ self.m_valBegin) (hv : ∀ e ∈ self.m_map, e.2 ≠ val) :
    ∃ s1, assign self keyBegin keyEnd val = Except.ok s1 ∧ Canonical s1 ∧ Sorted s1.m_map := by
  obtain ⟨L, M, R, hm, hL, hM, hR⟩ := exists_split self.m_map hs keyBegin keyEnd
  obtain ⟨d, m⟩ := self
  simp only at hm hs hv hd
  subst hm
  exact ⟨_, assign_split d L M R keyBegin keyEnd val hlt hL hM hR hs,
    canonical_assignRef_unused d L M R keyBegin keyEnd val hc (Ne.symm hd)
      (fun e he => hv e (by simp [he])) (fun e he => hv e (by simp [he]))
      (fun e he => hv e (by simp [he])),
    assignRef_sorted d L M R keyBegin keyEnd val hlt hL hM hR hs⟩

/-- Witness of C18 on the canonical map `{0 ↦ 'B', 5 ↦ 'C', 7 ↦ 'A'}`. -/
theorem assign_unused_value_canonical_witness :
    Sorted [((0 : Int), 'B'), (5, 'C'), (7, 'A')] ∧
    Canonical (⟨'A', [(0, 'B'), (5, 'C'), (7, 'A')]⟩ : interval_map Int Char) ∧
    (3 : Int) < 9 ∧ 'D' ≠ 'A' ∧
    (∀ e ∈ [((0 : Int), 'B'), (5, 'C'), (7, 'A')], e.2 ≠ 'D') ∧
    ∃ s1, assign (⟨'A', [(0, 'B'), (5, 'C'), (7, 'A')]⟩ : interval_map Int Char) 3 9 'D'
        = Except.ok s1 ∧ Canonical s1 ∧ Sorted s1.m_map :=
  ⟨by decide, by simp [Canonical], by decide, by decide, by decide,
    assign_unused_value_canonical ⟨'A', [(0, 'B'), (5, 'C'), (7, 'A')]⟩ (by decide)
      (by simp [Canonical]) 3 9 'D' (by decide) (by decide) (by decide)⟩

/-- C19 (lower frame): on a map with strictly increasing keys, `assign` returns
a state with the same default value whose breakpoints with key below `keyBegin`
are exactly those stored before the call, and `operator[]` is unchanged at every
key below `keyBegin`. -/
theorem assign_lower_frame (self : interval_map K V) (hs : Sorted self.m_map)
    (keyBegin keyEnd : K) (val : V) :
    ∃ s1, assign self keyBegin keyEnd val = Except.ok s1 ∧
      s1.m_valBegin = self.m_valBegin ∧
      (∀ e : K × V, e.1 < keyBegin → (e ∈ s1.m_map ↔ e ∈ self.m_map)) ∧
      (∀ k, k < keyBegin → s1.get k = self.get k) := by
  by_cases hlt : keyBegin < keyEnd
  · obtain ⟨L, M, R, hm, hL, hM, hR⟩ := exists_split self.m_map hs keyBegin keyEnd
    obtain ⟨d, m⟩ := self
    simp only at hm hs ⊢
    subst hm
    obtain ⟨Z, hZ, hZk⟩ := assignRef_lower d L M R keyBegin keyEnd val hlt hM hR
      (sorted_right hs)
    have hsorted := assignRef_sorted d L M R keyBegin keyEnd val hlt hL hM hR hs
    have hMR : ∀ e ∈ M ++ R, keyBegin ≤ e.1 := fun e he => by
      rcases List.mem_append.mp he with h | h
      · exact (hM e h).1
      · exact le_trans (le_of_lt hlt) (hR e h)
    refine ⟨_, assign_split d L M R keyBegin keyEnd val hlt hL hM hR hs, rfl, ?_, ?_⟩
    · intro e he
      simp only [hZ]
      constructor
      · intro h
        rcases List.mem_append.mp h with h | h
        · simp [h]
        · exact absurd he (not_lt.mpr (hZk e h))
      · intro h
        rw [List.append_assoc] at h
        rcases List.mem_append.mp h with h | h
        · simp [h]
        · exact absurd he (not_lt.mpr (hMR e h))
    · intro k hk
      rw [hZ] at hsorted ⊢
      have := get_lower_frame d L Z (M ++ R) keyBegin k hk hL hZk hMR hsorted
        (by simpa using hs)
      simpa using this
  · exact ⟨self, by simp [assign, hlt, pure, Except.pure], rfl, fun _ _ => Iff.rfl,
      fun _ _ => rfl⟩

/-- Witness of C19 on `{0 ↦ 'B', 5 ↦ 'C', 7 ↦ 'A'}`, range `[3, 9)`, value `'B'`. -/
theorem assign_lower_frame_witness :
    Sorted [((0 : Int), 'B'), (5, 'C'), (7, 'A')] ∧
    ∃ s1, assign (⟨'A', [(0, 'B'), (5, 'C'), (7, 'A')]⟩ : interval_map Int Char) 3 9 'B'
        = Except.ok s1 ∧
      s1.m_valBegin = 'A' ∧
      (∀ e : Int × Char, e.1 < 3 →
        (e ∈ s1.m_map ↔ e ∈ [((0 : Int), 'B'), (5, 'C'), (7, 'A')])) ∧
      (∀ k, k < 3 →
        s1.get k = (⟨'A', [(0, 'B'), (5, 'C'), (7, 'A')]⟩ : interval_map Int Char).get k) :=
  ⟨by decide, assign_lower_frame ⟨'A', [(0, 'B'), (5, 'C'), (7, 'A')]⟩ (by decide) 3 9 'B'⟩

end Claims5

end interval_map
